import Mathlib

/-!
Verification of the VerusCoin PBaaS RPC core (`src/rpc/pbaasrpc.cpp`)
against its natural-language specification.

The development shallow-embeds the relevant functions:
* `CalculateFractionalPrice` — the fixed-point rounding primitive;
* `GetChainTransfers` / `GetUnspentChainTransfers` — the transfer scans;
* `GetNotarizationData` — the notarization fork-resolution engine.

Machine integers are modelled as `Nat` with explicit reductions modulo
`2^64` / `2^256` where the C++ code truncates (`GetLow64`, `arith_uint256`
arithmetic).  External collaborators (address index, transaction store,
active chain) are passed in as an explicit environment record.
-/

namespace Verus

/-- `SATOSHIDEN`: the fixed-point scale, `10^8`. -/
def SATOSHIDEN : Nat := 100000000

/-- `2^64`, the width of `GetLow64` / `CAmount` bit patterns. -/
def pow64 : Nat := 2 ^ 64

/-- `2^256`, the modulus of `arith_uint256` arithmetic. -/
def pow256 : Nat := 2 ^ 256

/-- Embedding of `CalculateFractionalPrice(smallNumerator, smallDenominator,
roundup)` (`src/rpc/pbaasrpc.cpp:3569`).  The inputs are the `Nat` values of
non-negative `CAmount`s.  `arith_uint256` products are reduced mod `2^256`;
`GetLow64` keeps the low 64 bits of the remainder and of the quotient; the
final `answer++` is 64-bit increment on the returned `CAmount` bit pattern. -/
def CalculateFractionalPrice (smallNumerator smallDenominator : Nat) (roundup : Bool) : Nat :=
  let denominator : Nat := (smallDenominator * SATOSHIDEN) % pow256
  let numerator : Nat := (smallNumerator * (SATOSHIDEN * SATOSHIDEN % pow256)) % pow256
  let bigAnswer : Nat := numerator / denominator
  let remainder : Nat := (numerator - bigAnswer * denominator) % pow64
  let answer : Nat := bigAnswer % pow64
  if remainder ≠ 0 && roundup then (answer + 1) % pow64 else answer

/-- Closed-form evaluation of `CalculateFractionalPrice` when neither 256-bit
product overflows (true for all non-negative 64-bit inputs): the quotient is
`numerator*scale^2 / (denominator*scale)` truncated to 64 bits, and the
round-up test sees only the low 64 bits of the remainder. -/
theorem CalculateFractionalPrice_eq (n d : Nat) (roundup : Bool)
    (hn : n * (SATOSHIDEN * SATOSHIDEN) < pow256) (hd : d * SATOSHIDEN < pow256) :
    CalculateFractionalPrice n d roundup =
      if (n * SATOSHIDEN * SATOSHIDEN) % (d * SATOSHIDEN) % pow64 ≠ 0 && roundup then
        ((n * SATOSHIDEN * SATOSHIDEN) / (d * SATOSHIDEN) % pow64 + 1) % pow64
      else (n * SATOSHIDEN * SATOSHIDEN) / (d * SATOSHIDEN) % pow64 := by
  have hss : SATOSHIDEN * SATOSHIDEN % pow256 = SATOSHIDEN * SATOSHIDEN :=
    Nat.mod_eq_of_lt (by norm_num [SATOSHIDEN, pow256])
  have hmulassoc : n * SATOSHIDEN * SATOSHIDEN = n * (SATOSHIDEN * SATOSHIDEN) :=
    Nat.mul_assoc n SATOSHIDEN SATOSHIDEN
  have hrem : n * (SATOSHIDEN * SATOSHIDEN) -
      n * (SATOSHIDEN * SATOSHIDEN) / (d * SATOSHIDEN) * (d * SATOSHIDEN) =
      n * (SATOSHIDEN * SATOSHIDEN) % (d * SATOSHIDEN) := by
    have h := Nat.div_add_mod (n * (SATOSHIDEN * SATOSHIDEN)) (d * SATOSHIDEN)
    rw [Nat.mul_comm (n * (SATOSHIDEN * SATOSHIDEN) / (d * SATOSHIDEN)) (d * SATOSHIDEN)]
    omega
  simp only [CalculateFractionalPrice, hss, Nat.mod_eq_of_lt hn, Nat.mod_eq_of_lt hd,
    hmulassoc, hrem]

/-- Bound used to discharge the overflow side conditions: any value below
`2^63` times `scale^2` (resp. `scale`) stays below `2^256`. -/
theorem mulSatoshiSquared_lt_pow256 (n : Nat) (hn : n < 2 ^ 63) :
    n * (SATOSHIDEN * SATOSHIDEN) < pow256 :=
  lt_of_le_of_lt (Nat.mul_le_mul_right _ (Nat.le_of_lt hn))
    (by norm_num [SATOSHIDEN, pow256])

/-- Bound used to discharge the overflow side condition on the denominator. -/
theorem mulSatoshi_lt_pow256 (d : Nat) (hd : d < 2 ^ 63) :
    d * SATOSHIDEN < pow256 :=
  lt_of_le_of_lt (Nat.mul_le_mul_right _ (Nat.le_of_lt hd))
    (by norm_num [SATOSHIDEN, pow256])

/-- C2 (counterexample): at numerator `2^48`, denominator `2^57`, the true
remainder `numerator*scale^2 mod (denominator*scale)` equals `2^64 * 5^8`,
which is nonzero, yet its low 64 bits are zero, so the round-up flag is
ignored and the round-up result equals the round-down result — refuting the
claim that round-up adds 1 exactly when the remainder is nonzero. -/
theorem calculateFractionalPrice_roundup_counterexample :
    (2 ^ 48 * SATOSHIDEN * SATOSHIDEN) % (2 ^ 57 * SATOSHIDEN) ≠ 0 ∧
    CalculateFractionalPrice (2 ^ 48) (2 ^ 57) true =
      CalculateFractionalPrice (2 ^ 48) (2 ^ 57) false := by
  constructor
  · decide
  · decide

/-- C2 (amended): for non-negative 64-bit inputs with nonzero denominator,
round-up adds 1 (as a 64-bit increment) exactly when the LOW 64 BITS of the
remainder `numerator*scale^2 mod (denominator*scale)` are nonzero, and the
two rounding modes agree when those low 64 bits are zero. -/
theorem calculateFractionalPrice_roundup (n d : Nat)
    (hn : n < 2 ^ 63) (hd : d < 2 ^ 63) :
    ((n * SATOSHIDEN * SATOSHIDEN) % (d * SATOSHIDEN) % pow64 ≠ 0 →
      CalculateFractionalPrice n d true =
        (CalculateFractionalPrice n d false + 1) % pow64) ∧
    ((n * SATOSHIDEN * SATOSHIDEN) % (d * SATOSHIDEN) % pow64 = 0 →
      CalculateFractionalPrice n d true = CalculateFractionalPrice n d false) := by
  have h1 := CalculateFractionalPrice_eq n d true
    (mulSatoshiSquared_lt_pow256 n hn) (mulSatoshi_lt_pow256 d hd)
  have h2 := CalculateFractionalPrice_eq n d false
    (mulSatoshiSquared_lt_pow256 n hn) (mulSatoshi_lt_pow256 d hd)
  constructor
  · intro hne
    simp [h1, h2, hne]
  · intro heq
    simp [h1, h2, heq]

/-- C2 (witness): at numerator 1, denominator 3 the low 64 bits of the
remainder are nonzero and round-up indeed returns round-down plus 1. -/
theorem calculateFractionalPrice_roundup_witness :
    (1 * SATOSHIDEN * SATOSHIDEN) % (3 * SATOSHIDEN) % pow64 ≠ 0 ∧
    CalculateFractionalPrice 1 3 true = (CalculateFractionalPrice 1 3 false + 1) % pow64 :=
  ⟨by decide, (calculateFractionalPrice_roundup 1 3 (by decide) (by decide)).1 (by decide)⟩

/-- C3 (counterexample): at numerator `2^62`, denominator 1 the mathematical
floor `numerator*scale^2 / (denominator*scale) = 2^62*10^8` does not fit in
64 bits; the function returns its low 64 bits, which are 0, refuting the
claim that the round-down result always equals the mathematical floor. -/
theorem calculateFractionalPrice_floor_counterexample :
    CalculateFractionalPrice (2 ^ 62) 1 false = 0 ∧
    (2 ^ 62 * SATOSHIDEN * SATOSHIDEN) / (1 * SATOSHIDEN) ≠ 0 := by
  constructor
  · decide
  · decide

/-- C3 (amended): for non-negative 64-bit inputs with nonzero denominator,
the round-down result equals `floor(numerator*scale^2 / (denominator*scale))`
REDUCED TO ITS LOW 64 BITS (the 256-bit intermediates themselves cannot
overflow); the claim's concrete instance numerator=1, denominator=3 holds
exactly as stated. -/
theorem calculateFractionalPrice_floor :
    (∀ n d : Nat, n < 2 ^ 63 → d < 2 ^ 63 →
      CalculateFractionalPrice n d false =
        (n * SATOSHIDEN * SATOSHIDEN) / (d * SATOSHIDEN) % pow64) ∧
    (CalculateFractionalPrice 1 3 false * 3 * SATOSHIDEN ≤ 1 * (SATOSHIDEN * SATOSHIDEN) ∧
      1 * (SATOSHIDEN * SATOSHIDEN) < (CalculateFractionalPrice 1 3 false + 1) * 3 * SATOSHIDEN) := by
  constructor
  · intro n d hn hd
    have h := CalculateFractionalPrice_eq n d false
      (mulSatoshiSquared_lt_pow256 n hn) (mulSatoshi_lt_pow256 d hd)
    simp [h]
  · constructor
    · decide
    · decide

/-- C3 (witness): the universally quantified part of the amended claim,
instantiated at numerator 5, denominator 7. -/
theorem calculateFractionalPrice_floor_witness :
    CalculateFractionalPrice 5 7 false =
      (5 * SATOSHIDEN * SATOSHIDEN) / (7 * SATOSHIDEN) % pow64 :=
  calculateFractionalPrice_floor.1 5 7 (by decide) (by decide)

/-! ## Data model

`uint256` hashes and `uint160` ids are modelled as `Nat`, with `0` playing
the role of the null hash (`IsNull()`).  Scripts are modelled by their
crypto-condition parse: `none` when `IsPayToCryptoCondition` fails, and the
parsed `COptCCParams` otherwise.  A data blob (`vData` element) is modelled
by the outcome of each deserializer the code may apply to it. -/

/-- `CUTXORef` / `COutPoint`: a transaction output reference. -/
structure CUTXORef where
  hash : Nat
  n : Nat
deriving DecidableEq, Repr

/-- The default-constructed `CUTXORef()`: null hash, index `(uint32_t)-1`. -/
def nullUTXORef : CUTXORef := ⟨0, 4294967295⟩

/-- `CProofRoot`: a succinct commitment to a system's state at a height. -/
structure CProofRoot where
  systemID : Nat
  rootHeight : Nat
  stateRoot : Nat
  blockHash : Nat
  compactPower : Nat
deriving DecidableEq, Repr

/-- `CPBaaSNotarization`, restricted to the fields this code reads
(`IsValid`, `prevNotarization`, `proofRoots`) and the fields the
local-currency branch fills in.  Unread fields (node list, per-currency
state map, version) are omitted. -/
structure CPBaaSNotarization where
  valid : Bool
  currencyID : Nat
  currencyState : Nat
  notarizationHeight : Nat
  prevNotarization : CUTXORef
  prevHeight : Nat
  proofRoots : List (Nat × CProofRoot)
  proposer : Nat
  flags : Nat
deriving DecidableEq, Repr

/-- The invalid/default `CPBaaSNotarization` (version `VERSION_INVALID`). -/
def defaultNotarization : CPBaaSNotarization :=
  ⟨false, 0, 0, 0, nullUTXORef, 0, [], 0, 0⟩

/-- `CObjectFinalization`, restricted to the fields this code reads. -/
structure CObjectFinalization where
  valid : Bool
  output : CUTXORef
deriving DecidableEq, Repr

/-- `CReserveTransfer`, restricted to the fields this code reads:
validity, flags, `FirstCurrency()` and the declared destination. -/
structure CReserveTransfer where
  valid : Bool
  flags : Nat
  firstCurrencyID : Nat
  destCurrencyID : Nat
deriving DecidableEq, Repr

/-- `CReserveTransfer::VALID` flag bit. -/
def RT_VALID : Nat := 1

/-- `CReserveTransfer::IMPORT_TO_SOURCE` flag bit (the exact bit position is
not observable by the verified properties; what matters is that it is a
fixed single bit). -/
def RT_IMPORT_TO_SOURCE : Nat := 512

/-- Crypto-condition eval codes.  Only their distinctness is observable. -/
def EVAL_EARNEDNOTARIZATION : Nat := 4

/-- Eval code of accepted notarization outputs. -/
def EVAL_ACCEPTEDNOTARIZATION : Nat := 5

/-- Eval code of finalization outputs. -/
def EVAL_FINALIZE_NOTARIZATION : Nat := 6

/-- Eval code of reserve-transfer outputs. -/
def EVAL_RESERVE_TRANSFER : Nat := 8

/-- `CPBaaSNotarization::FLAG_LAUNCH_CONFIRMED` (value not observable). -/
def FLAG_LAUNCH_CONFIRMED : Nat := 4

/-- A `vData` blob, modelled by what each deserializer the code may apply
to it yields: `CObjectFinalization(vch)`, `CPBaaSNotarization(vch)`,
`CReserveTransfer(vch)` (each carrying its own validity flag), and whether
`COptCCParams(vch)` is valid (its contents are never read). -/
structure Blob where
  fin : CObjectFinalization
  nota : CPBaaSNotarization
  rt : CReserveTransfer
  ccValid : Bool
deriving DecidableEq, Repr

/-- A blob none of the deserializers accept. -/
def defaultBlob : Blob :=
  ⟨⟨false, nullUTXORef⟩, defaultNotarization, ⟨false, 0, 0, 0⟩, false⟩

/-- `COptCCParams` as produced by `IsPayToCryptoCondition`. -/
structure COptCCParams where
  valid : Bool
  version : Nat
  evalCode : Nat
  vData : List Blob
deriving DecidableEq, Repr

/-- A script, modelled by its crypto-condition parse (`none` when
`IsPayToCryptoCondition` returns false). -/
def Script := Option COptCCParams
deriving DecidableEq, Repr

/-- `CTxOut`: script plus value. -/
structure CTxOut where
  scriptPubKey : Script
  nValue : Int
deriving DecidableEq, Repr

/-- The default `CTxOut` used to totalize out-of-range `vout` accesses
(the C++ code never performs them on well-formed index data). -/
def defaultTxOut : CTxOut := ⟨(none : Option COptCCParams), 0⟩

/-- `CTransaction`, restricted to its outputs. -/
structure CTransaction where
  vout : List CTxOut
deriving DecidableEq, Repr

/-- One `GetAddressUnspent` result: key `{txhash, index}` and value
`{script, blockHeight}` (the unread `satoshis` field is omitted). -/
structure AUEntry where
  txhash : Nat
  index : Nat
  script : Script
  blockHeight : Nat
deriving DecidableEq, Repr

/-- One `GetAddressIndex` result: key `{txhash, index, spending}` (the
unread `CAmount` value is omitted). -/
structure AIEntry where
  txhash : Nat
  index : Nat
  spending : Bool
deriving DecidableEq, Repr

/-- `CCoins` as seen through `GetCoins`/`IsAvailable`: the block height and
the outputs, with `none` for spent (null) or out-of-range positions. -/
structure CCoins where
  nHeight : Nat
  vout : List (Option CTxOut)
deriving DecidableEq, Repr

/-- `CCurrencyDefinition`, restricted to the one predicate this code reads
(`IsToken()`); invalid definitions are represented by `none` at the
`getCachedCurrency` call site. -/
structure CCurrencyDefinition where
  isToken : Bool
deriving DecidableEq, Repr

/-- `CInputDescriptor`: script, value, and the outpoint being spent. -/
structure CInputDescriptor where
  scriptPubKey : Script
  nValue : Int
  txIn : CUTXORef
deriving DecidableEq, Repr

/-- The externally-owned collaborators (§6 of the spec), passed explicitly:
transaction store, active-chain view, coins view, currency cache, local
chain identity/height, and the address-index query results.  The
`confirmedUnspent`/`pendingUnspent` maps are keyed by the currency id from
which the real code derives the index key. -/
structure Env where
  getTransaction : Nat → Option (CTransaction × Nat)
  blockInActiveChain : Nat → Bool
  getCoins : Nat → Option CCoins
  getCachedCurrency : Nat → Option CCurrencyDefinition
  isVerusActive : Bool
  height : Nat
  chainID : Nat
  currencyState : Nat → Nat
  proofRoot : Nat → CProofRoot
  proposer : Nat
  transfersIndex : Nat → Nat → Option (List AIEntry)
  transfersUnspent : Option (List AUEntry)
  confirmedUnspent : Nat → Option (List AUEntry)
  pendingUnspent : Nat → Option (List AUEntry)

/-! ## Transfer scans (`GetChainTransfers`, `GetUnspentChainTransfers`,
`src/rpc/pbaasrpc.cpp:2242` and `:2311`) -/

/-- The effective destination of a reserve transfer:
`(rt.flags & rt.IMPORT_TO_SOURCE) ? rt.FirstCurrency() : rt.destCurrencyID`. -/
def transferDest (rt : CReserveTransfer) : Nat :=
  if rt.flags &&& RT_IMPORT_TO_SOURCE ≠ 0 then rt.firstCurrencyID else rt.destCurrencyID

/-- The per-entry test of `GetChainTransfers` (`pbaasrpc.cpp:2279`): the
retrieved transaction's output must be a valid reserve transfer whose
second data blob is a valid `COptCCParams`, passing the destination filter
and the flag mask. -/
def chainTransferItem (nofilter : Bool) (chainFilter flags : Nat) (ntx : CTransaction)
    (e : AIEntry) : Option (Nat × CInputDescriptor × CReserveTransfer) :=
  let out := ntx.vout.getD e.index defaultTxOut
  match out.scriptPubKey with
  | none => none
  | some p =>
    let rt := (p.vData.headD defaultBlob).rt
    if p.evalCode = EVAL_RESERVE_TRANSFER ∧ 1 < p.vData.length ∧ rt.valid ∧
        ((p.vData.getD 1 defaultBlob).ccValid = true) ∧
        (nofilter = true ∨ transferDest rt = chainFilter) ∧
        rt.flags &&& flags = flags then
      some (transferDest rt,
            CInputDescriptor.mk out.scriptPubKey out.nValue ⟨e.txhash, e.index⟩, rt)
    else none

/-- The entry loop of `GetChainTransfers` (`pbaasrpc.cpp:2265`): spending
index entries are skipped; an unretrievable backing transaction aborts the
whole scan (`return false`, line 2302); otherwise the output is parsed and
kept when it passes `chainTransferItem`.  Results are returned in scan
order (the C++ multimap groups them by destination; the collection of
inserted pairs is the same). -/
def chainTransfersLoop (env : Env) (nofilter : Bool) (chainFilter : Nat) (flags : Nat) :
    List AIEntry → Option (List (Nat × CInputDescriptor × CReserveTransfer))
  | [] => some []
  | e :: rest =>
    if e.spending then chainTransfersLoop env nofilter chainFilter flags rest
    else
      match env.getTransaction e.txhash with
      | none => none
      | some (ntx, _) =>
        match chainTransferItem nofilter chainFilter flags ntx e with
        | some item => (chainTransfersLoop env nofilter chainFilter flags rest).map (item :: ·)
        | none => chainTransfersLoop env nofilter chainFilter flags rest

/-- `GetChainTransfers(inputDescriptors, chainFilter, start, end, flags)`:
zero `flags` defaults to `VALID`; a failing index query or a failing
transaction lookup yields `none` (`return false`). -/
def GetChainTransfers (env : Env) (chainFilter : Nat) (start endH : Nat) (flags : Nat) :
    Option (List (Nat × CInputDescriptor × CReserveTransfer)) :=
  let flags' := if flags = 0 then RT_VALID else flags
  let nofilter := chainFilter = 0
  match env.transfersIndex start endH with
  | none => none
  | some entries => chainTransfersLoop env (decide nofilter) chainFilter flags' entries

/-- The per-entry step of `GetUnspentChainTransfers` (`pbaasrpc.cpp:2329`):
retrieve the coins, check the output is still available, and accept it when
it is a valid V3+ reserve transfer with a non-null destination passing the
filter; any failure yields `none` (skip). -/
def unspentTransferItem (env : Env) (nofilter : Bool) (chainFilter : Nat) (e : AUEntry) :
    Option (Nat × Nat × CInputDescriptor × CReserveTransfer) :=
  match env.getCoins e.txhash with
  | none => none
  | some coins =>
    match coins.vout.getD e.index none with
    | none => none
    | some out =>
      match out.scriptPubKey with
      | none => none
      | some p =>
        let rt := (p.vData.headD defaultBlob).rt
        if p.evalCode = EVAL_RESERVE_TRANSFER ∧ p.vData ≠ [] ∧ 3 ≤ p.version ∧
            ((p.vData.getLastD defaultBlob).ccValid = true) ∧ rt.valid ∧
            transferDest rt ≠ 0 ∧ (nofilter = true ∨ transferDest rt = chainFilter) then
          some (transferDest rt, coins.nHeight,
            CInputDescriptor.mk out.scriptPubKey out.nValue ⟨e.txhash, e.index⟩, rt)
        else none

/-- The entry loop of `GetUnspentChainTransfers` (`pbaasrpc.cpp:2327`):
an entry whose coins cannot be retrieved, is unavailable, or does not parse
as a valid reserve transfer is skipped; the loop never fails. -/
def unspentTransfersLoop (env : Env) (nofilter : Bool) (chainFilter : Nat) :
    List AUEntry → List (Nat × Nat × CInputDescriptor × CReserveTransfer)
  | [] => []
  | e :: rest =>
    match unspentTransferItem env nofilter chainFilter e with
    | some item => item :: unspentTransfersLoop env nofilter chainFilter rest
    | none => unspentTransfersLoop env nofilter chainFilter rest

/-- `GetUnspentChainTransfers(inputDescriptors, chainFilter)`: fails only
when the address-index query itself fails; individual entries are
skip-and-continue. -/
def GetUnspentChainTransfers (env : Env) (chainFilter : Nat) :
    Option (List (Nat × Nat × CInputDescriptor × CReserveTransfer)) :=
  let nofilter := chainFilter = 0
  match env.transfersUnspent with
  | none => none
  | some entries => some (unspentTransfersLoop env (decide nofilter) chainFilter entries)

/-- Each unspent-scan entry contributes independently of the rest:
the loop distributes over list append. -/
theorem unspentTransfersLoop_append (env : Env) (nf : Bool) (cf : Nat) (l1 l2 : List AUEntry) :
    unspentTransfersLoop env nf cf (l1 ++ l2) =
      unspentTransfersLoop env nf cf l1 ++ unspentTransfersLoop env nf cf l2 := by
  induction l1 with
  | nil => simp [unspentTransfersLoop]
  | cons a t ih =>
    simp only [List.cons_append, unspentTransfersLoop]
    cases h1 : unspentTransferItem env nf cf a <;> simp [ih]

/-- The ranged-scan loop fails as soon as any non-spending entry's backing
transaction is unretrievable. -/
theorem chainTransfersLoop_fails (env : Env) (nf : Bool) (cf flags : Nat)
    (l : List AIEntry) (e : AIEntry) (hmem : e ∈ l) (hspend : e.spending = false)
    (htx : env.getTransaction e.txhash = none) :
    chainTransfersLoop env nf cf flags l = none := by
  induction l with
  | nil => simp at hmem
  | cons a t ih =>
    rcases List.mem_cons.mp hmem with rfl | hmem'
    · simp [chainTransfersLoop, hspend, htx]
    · simp only [chainTransfersLoop]
      by_cases hsp : a.spending
      · simp [hsp, ih hmem']
      · simp only [hsp, Bool.false_eq_true, if_false]
        cases h1 : env.getTransaction a.txhash with
        | none => rfl
        | some tx =>
          obtain ⟨ntx, blk⟩ := tx
          cases h2 : chainTransferItem nf cf flags ntx a <;> simp [h2, ih hmem']

/-- The ranged-scan loop succeeds whenever every non-spending entry's
backing transaction is retrievable. -/
theorem chainTransfersLoop_isSome (env : Env) (nf : Bool) (cf flags : Nat)
    (l : List AIEntry)
    (hres : ∀ e ∈ l, e.spending = false → (env.getTransaction e.txhash).isSome = true) :
    (chainTransfersLoop env nf cf flags l).isSome = true := by
  induction l with
  | nil => simp [chainTransfersLoop]
  | cons a t ih =>
    have hres' : ∀ e ∈ t, e.spending = false → (env.getTransaction e.txhash).isSome = true :=
      fun e he hsp => hres e (List.mem_cons_of_mem a he) hsp
    simp only [chainTransfersLoop]
    by_cases hsp : a.spending
    · simp [hsp, ih hres']
    · have hs := hres a (List.mem_cons_self a t) (by simpa using hsp)
      simp only [hsp, Bool.false_eq_true, if_false]
      cases h1 : env.getTransaction a.txhash with
      | none => rw [h1] at hs; simp at hs
      | some tx =>
        obtain ⟨ntx, blk⟩ := tx
        cases h2 : chainTransferItem nf cf flags ntx a with
        | none => simpa [h2] using ih hres'
        | some item =>
          have iht := ih hres'
          cases h3 : chainTransfersLoop env nf cf flags t with
          | none => rw [h3] at iht; simp at iht
          | some r => simp [h2, h3]

/-- An environment whose reserve-transfer address index holds one
non-spending entry whose backing transaction cannot be retrieved. -/
def envMissingTx : Env where
  getTransaction := fun _ => none
  blockInActiveChain := fun _ => false
  getCoins := fun _ => none
  getCachedCurrency := fun _ => none
  isVerusActive := false
  height := 0
  chainID := 0
  currencyState := fun _ => 0
  proofRoot := fun _ => ⟨0, 0, 0, 0, 0⟩
  proposer := 0
  transfersIndex := fun _ _ => some [⟨7, 0, false⟩]
  transfersUnspent := some [⟨1, 0, none, 0⟩]
  confirmedUnspent := fun _ => none
  pendingUnspent := fun _ => none

/-- C4 (counterexample): in the height-ranged scan `GetChainTransfers`, a
single indexed entry whose backing transaction cannot be retrieved makes
the whole query fail (`return false`, `pbaasrpc.cpp:2302`) instead of being
skipped — refuting the claim for the spent-and-unspent scan. -/
theorem chainTransfers_missingTx_counterexample :
    GetChainTransfers envMissingTx 0 0 100 0 = none := by
  rfl

/-- C4 (amended): in the UNSPENT scan, unresolvable or invalid entries are
skipped and the scan always succeeds with the remaining valid entries; in
the height-ranged scan, entries whose payload parses invalidly are skipped,
but an entry whose backing TRANSACTION cannot be retrieved causes the whole
query to fail; the ranged scan succeeds whenever every non-spending entry's
transaction is retrievable. -/
theorem chainTransfers_skip_and_continue :
    (∀ (env : Env) (chainFilter : Nat) (l : List AUEntry),
      env.transfersUnspent = some l →
      GetUnspentChainTransfers env chainFilter =
        some (unspentTransfersLoop env (decide (chainFilter = 0)) chainFilter l)) ∧
    (∀ (env : Env) (nf : Bool) (cf : Nat) (l1 l2 : List AUEntry) (e : AUEntry),
      env.getCoins e.txhash = none →
      unspentTransfersLoop env nf cf (l1 ++ e :: l2) =
        unspentTransfersLoop env nf cf (l1 ++ l2)) ∧
    (∀ (env : Env) (chainFilter start endH flags : Nat) (l : List AIEntry) (e : AIEntry),
      env.transfersIndex start endH = some l → e ∈ l → e.spending = false →
      env.getTransaction e.txhash = none →
      GetChainTransfers env chainFilter start endH flags = none) ∧
    (∀ (env : Env) (chainFilter start endH flags : Nat) (l : List AIEntry),
      env.transfersIndex start endH = some l →
      (∀ e ∈ l, e.spending = false → (env.getTransaction e.txhash).isSome = true) →
      (GetChainTransfers env chainFilter start endH flags).isSome = true) := by
  refine ⟨?_, ?_, ?_, ?_⟩
  · intro env chainFilter l hl
    simp [GetUnspentChainTransfers, hl]
  · intro env nf cf l1 l2 e he
    rw [unspentTransfersLoop_append, unspentTransfersLoop_append]
    congr 1
    simp [unspentTransfersLoop, unspentTransferItem, he]
  · intro env chainFilter start endH flags l e hl hmem hspend htx
    simp only [GetChainTransfers, hl]
    exact chainTransfersLoop_fails env _ _ _ l e hmem hspend htx
  · intro env chainFilter start endH flags l hl hres
    simp only [GetChainTransfers, hl]
    exact chainTransfersLoop_isSome env _ _ _ l hres

/-- C4 (witness): the unspent-scan part of the amended claim at a concrete
environment with a single (unparseable) entry. -/
theorem chainTransfers_skip_witness :
    GetUnspentChainTransfers envMissingTx 0 =
      some (unspentTransfersLoop envMissingTx (decide ((0 : Nat) = 0)) 0 [⟨1, 0, none, 0⟩]) :=
  chainTransfers_skip_and_continue.1 envMissingTx 0 [⟨1, 0, none, 0⟩] rfl

/-! ## Notarization fork resolution (`GetNotarizationData`,
`src/rpc/pbaasrpc.cpp:2368`) -/

/-- `CChainNotarizationData`: the query-time fork index. -/
structure CChainNotarizationData where
  vtx : List (CUTXORef × CPBaaSNotarization)
  forks : List (List Nat)
  lastConfirmed : Nat
  bestChain : Nat
deriving DecidableEq, Repr

/-- Modelled from the spec: the `CPBaaSNotarization(const CScript &)`
constructor (declared in the PBaaS headers, not under `src/`): a
notarization-tagged crypto-condition output carries the record as its first
data blob; anything else yields an invalid record.  This mirrors the
explicit unfolded check the pending loop performs at `pbaasrpc.cpp:2550`. -/
def notarizationFromScript (s : Script) : Option CPBaaSNotarization :=
  match s with
  | none => none
  | some p =>
    if p.valid ∧ (p.evalCode = EVAL_ACCEPTEDNOTARIZATION ∨ p.evalCode = EVAL_EARNEDNOTARIZATION) ∧
        p.vData ≠ [] ∧ (p.vData.headD defaultBlob).nota.valid = true then
      some (p.vData.headD defaultBlob).nota
    else none

/-- The `bestIt` scan (`pbaasrpc.cpp:2417`): the confirmed unspent
finalization with the highest block height, first one winning ties. -/
def bestUnspent (e : AUEntry) (rest : List AUEntry) : AUEntry :=
  rest.foldl (fun b x => if b.blockHeight < x.blockHeight then x else b) e

/-- The record synthesized for the local/home currency
(`pbaasrpc.cpp:2391`): current height, current currency state, a proof root
for the local chain, launch-confirmed flag, no predecessor. -/
def synthesizedNotarization (env : Env) (cid : Nat) : CPBaaSNotarization where
  valid := true
  currencyID := cid
  currencyState := env.currencyState env.height
  notarizationHeight := env.height
  prevNotarization := nullUTXORef
  prevHeight := 0
  proofRoots := [(env.chainID, env.proofRoot env.height)]
  proposer := env.proposer
  flags := FLAG_LAUNCH_CONFIRMED

/-- The fork index returned for the local/home currency
(`pbaasrpc.cpp:2402`): a single synthesized record, one fork of length 1,
best chain and last confirmed both 0. -/
def localNotarizationData (env : Env) (cid : Nat) : CChainNotarizationData where
  vtx := [(nullUTXORef, synthesizedNotarization env cid)]
  forks := [[0]]
  lastConfirmed := 0
  bestChain := 0

/-- Outcome of the seed step (`pbaasrpc.cpp:2409`–`2516`): fatal failure,
done (token with a legacy notarization output returns without scanning
pending finalizations), or continue into the pending scan. -/
inductive SeedOutcome where
  | fail : SeedOutcome
  | done : CChainNotarizationData → SeedOutcome
  | cont : CChainNotarizationData → SeedOutcome
deriving DecidableEq, Repr

/-- The seed step: locate the best confirmed unspent finalization, resolve
it to the notarization it finalizes (or read the legacy notarization output
directly), and build the single seed fork.  `withTxOut` mirrors the
`optionalTxOut` argument, whose retrieval failures abort the query in the
legacy branch (`pbaasrpc.cpp:2493`, `:2501`). -/
def seedConfirmed (env : Env) (withTxOut : Bool) (cid : Nat)
    (chainDef : CCurrencyDefinition) : SeedOutcome :=
  match env.confirmedUnspent cid with
  | none => .fail
  | some [] => .fail
  | some (e0 :: rest) =>
    let best := bestUnspent e0 rest
    match best.script with
    | none => .fail
    | some p =>
      if p.valid ∧ (p.evalCode = EVAL_FINALIZE_NOTARIZATION ∨
          p.evalCode = EVAL_EARNEDNOTARIZATION ∨ p.evalCode = EVAL_ACCEPTEDNOTARIZATION) ∧
          p.vData ≠ [] then
        if p.evalCode = EVAL_FINALIZE_NOTARIZATION then
          let f := (p.vData.headD defaultBlob).fin
          let txInfo : CUTXORef :=
            ⟨if f.output.hash = 0 then best.txhash else f.output.hash, f.output.n⟩
          match env.getTransaction txInfo.hash with
          | none => .fail
          | some (nTx, _) =>
            if txInfo.n < nTx.vout.length then
              match notarizationFromScript (nTx.vout.getD txInfo.n defaultTxOut).scriptPubKey with
              | none => .fail
              | some nota => .cont ⟨[(txInfo, nota)], [[0]], 0, 0⟩
            else .fail
        else
          let nota := (p.vData.headD defaultBlob).nota
          if nota.valid then
            let txInfo : CUTXORef := ⟨best.txhash, best.index⟩
            let c : CChainNotarizationData := ⟨[(txInfo, nota)], [[0]], 0, 0⟩
            if withTxOut then
              match env.getTransaction txInfo.hash with
              | none => .fail
              | some (nTx, _) =>
                if txInfo.n < nTx.vout.length then
                  match notarizationFromScript
                      (nTx.vout.getD txInfo.n defaultTxOut).scriptPubKey with
                  | none => .fail
                  | some _ => if chainDef.isToken then .done c else .cont c
                else .fail
            else if chainDef.isToken then .done c else .cont c
          else .fail
      else .fail

/-- Validation of one pending finalization entry (`pbaasrpc.cpp:2541`): it
must be a valid finalization whose referenced transaction output holds a
valid notarization mined in a block on the active chain; anything else is
skipped.  On success, yields `(prevNotarization, (finalized output,
record))`, the pair inserted into `notarizationReferences`. -/
def pendingRefOfEntry (env : Env) (e : AUEntry) :
    Option (CUTXORef × CUTXORef × CPBaaSNotarization) :=
  match e.script with
  | none => none
  | some p =>
    if p.valid ∧ p.evalCode = EVAL_FINALIZE_NOTARIZATION ∧ p.vData ≠ [] ∧
        (p.vData.headD defaultBlob).fin.valid = true then
      let f := (p.vData.headD defaultBlob).fin
      match env.getTransaction (if f.output.hash = 0 then e.txhash else f.output.hash) with
      | none => none
      | some (nTx, blkHash) =>
        if f.output.n < nTx.vout.length then
          match (nTx.vout.getD f.output.n defaultTxOut).scriptPubKey with
          | none => none
          | some p2 =>
            if p2.valid ∧ (p2.evalCode = EVAL_ACCEPTEDNOTARIZATION ∨
                p2.evalCode = EVAL_EARNEDNOTARIZATION) ∧ p2.vData ≠ [] ∧
                (p2.vData.headD defaultBlob).nota.valid = true ∧ blkHash ≠ 0 ∧
                env.blockInActiveChain blkHash = true then
              some ((p2.vData.headD defaultBlob).nota.prevNotarization,
                ⟨if f.output.hash = 0 then e.txhash else f.output.hash, f.output.n⟩,
                (p2.vData.headD defaultBlob).nota)
            else none
        else none
    else none

/-- The pending-collection loop (`pbaasrpc.cpp:2541`): the multimap of
valid pending records keyed by the reference they extend.  The C++
`std::multimap` is only ever queried for all entries of one exact key
(which it keeps in insertion order) and erased by key, so a list in
insertion order is an equivalent representation. -/
def collectPendingRefs (env : Env) (pfs : List AUEntry) :
    List (CUTXORef × CUTXORef × CPBaaSNotarization) :=
  pfs.filterMap (pendingRefOfEntry env)

/-- State of the fixed-point expansion (`pbaasrpc.cpp:2579`). -/
structure ExpState where
  vtx : List (CUTXORef × CPBaaSNotarization)
  forks : List (List Nat)
  refs : List (CUTXORef × CUTXORef × CPBaaSNotarization)
deriving DecidableEq, Repr

/-- The output reference at fork `forkNum`'s tip:
`notarizationData.vtx[notarizationData.forks[forkNum].back()].first`. -/
def tipRef (st : ExpState) (forkNum : Nat) : CUTXORef :=
  (st.vtx.getD ((st.forks.getD forkNum []).getLastD 0) (nullUTXORef, defaultNotarization)).1

/-- Processing of one fork inside a pass (`pbaasrpc.cpp:2585`–`2615`): all
pending records whose parent reference equals the fork's tip are appended
to `vtx` in multimap order; the first match extends the fork in place, each
further match clones the fork's prefix with the new tip; all entries with
that key are then erased.  Returns the new state and whether a first match
set `somethingAdded`. -/
def processFork (st : ExpState) (forkNum : Nat) : ExpState × Bool :=
  let fork := st.forks.getD forkNum []
  let searchRef := tipRef st forkNum
  let ms := st.refs.filter (fun r => decide (r.1 = searchRef))
  let st' : ExpState :=
    { vtx := st.vtx ++ ms.map (·.2)
      forks :=
        if ms.isEmpty then st.forks
        else
          (st.forks.set forkNum (fork ++ [st.vtx.length])) ++
            ((List.range ms.length).drop 1).map (fun j => fork ++ [st.vtx.length + j])
      refs := st.refs.filter (fun r => decide (r.1 ≠ searchRef)) }
  (st', !ms.isEmpty)

/-- One step of a pass: process fork `forkNum` and accumulate the
`somethingAdded` flag. -/
def passStep (acc : ExpState × Bool) (forkNum : Nat) : ExpState × Bool :=
  let r := processFork acc.1 forkNum
  (r.1, acc.2 || r.2)

/-- One pass of the expansion loop: every fork index that existed at the
start of the pass is processed once, in order. -/
def onePass (st : ExpState) : ExpState × Bool :=
  (List.range st.forks.length).foldl passStep (st, false)

/-- The fixed-point expansion loop (`pbaasrpc.cpp:2580`): repeat passes
while the previous pass extended some fork and pending records remain.  The
C++ loop terminates because every continuing pass consumes at least one
pending record; `fuel` bounds the recursion and `refs.length + 1` is always
sufficient. -/
def expandLoop : Nat → ExpState → ExpState
  | 0, st => st
  | fuel + 1, st =>
    if st.refs.isEmpty then st
    else
      let r := onePass st
      if r.2 then expandLoop fuel r.1 else r.1

/-- `CChainPower`, restricted to what the selection step observes: the
expanded accumulated power and the fork index stored alongside it. -/
structure CChainPower where
  power : Nat
  index : Nat
deriving DecidableEq, Repr

/-- Modelled from the spec: `CChainPower::ExpandCompactPower` (defined in
chain code outside `src/`) expands a compact accumulated-power value and
tags it with the fork index; the expansion is order-preserving, so it is
modelled as the identity on the compact value. -/
def ExpandCompactPower (compact : Nat) (idx : Nat) : CChainPower := ⟨compact, idx⟩

/-- Modelled from the spec: `CChainPower::operator>` compares primarily by
accumulated power; ties break deterministically toward the lower fork index
("lower wins, as first discovered", spec §4.1). -/
def chainPowerGT (a b : CChainPower) : Bool :=
  decide (b.power < a.power) || (decide (a.power = b.power) && decide (a.index < b.index))

/-- `proofRoots.count(currencyID)` / `proofRoots[currencyID]`: lookup in
the per-system proof-root map. -/
def proofRootFor (nota : CPBaaSNotarization) (cid : Nat) : Option CProofRoot :=
  (nota.proofRoots.find? (fun pr => decide (pr.1 = cid))).map (·.2)

/-- The notarization record at fork `i`'s tip:
`vtx[forks[i].back()].second`. -/
def tipRecord (vtx : List (CUTXORef × CPBaaSNotarization)) (forks : List (List Nat))
    (i : Nat) : CPBaaSNotarization :=
  (vtx.getD ((forks.getD i []).getLastD 0) (nullUTXORef, defaultNotarization)).2

/-- The proof root the selection loop reads for fork `i`'s tip. -/
def tipRoot (cid : Nat) (vtx : List (CUTXORef × CPBaaSNotarization))
    (forks : List (List Nat)) (i : Nat) : Option CProofRoot :=
  proofRootFor (tipRecord vtx forks i) cid

/-- The body of the selection loop (`pbaasrpc.cpp:2623`–`2646`): a fork
whose tip presents a proof root for the currency replaces the running best
when its expanded power compares greater; a fork without one is only
logged. -/
def selStep (cid : Nat) (vtx : List (CUTXORef × CPBaaSNotarization))
    (forks : List (List Nat)) (acc : Nat × CChainPower) (i : Nat) : Nat × CChainPower :=
  match tipRoot cid vtx forks i with
  | some pr =>
    let cur := ExpandCompactPower pr.compactPower i
    if chainPowerGT cur acc.2 then (i, cur) else acc
  | none => acc

/-- The selection step (`pbaasrpc.cpp:2621`–`2646`): starting from
`bestChain = 0` and a default (zero) power, fold `selStep` over the fork
indices in order. -/
def bestChainSelect (cid : Nat) (vtx : List (CUTXORef × CPBaaSNotarization))
    (forks : List (List Nat)) : Nat :=
  ((List.range forks.length).foldl (selStep cid vtx forks) (0, ⟨0, 0⟩)).1

/-- The pending-growth-and-selection phase (`pbaasrpc.cpp:2518`–`2647`):
when the pending index query yields entries, collect the valid records,
expand the seed fork to a fixed point, and recompute the best chain;
otherwise the seed fork index is returned unchanged. -/
def growAndSelect (env : Env) (cid : Nat) (c : CChainNotarizationData) :
    CChainNotarizationData :=
  match env.pendingUnspent cid with
  | none => c
  | some [] => c
  | some (pf :: pfs) =>
    let refs := collectPendingRefs env (pf :: pfs)
    let st := expandLoop (refs.length + 1) ⟨c.vtx, c.forks, refs⟩
    { vtx := st.vtx
      forks := st.forks
      lastConfirmed := c.lastConfirmed
      bestChain := bestChainSelect cid st.vtx st.forks }

/-- `GetNotarizationData(currencyID, notarizationData, optionalTxOut)`
(`pbaasrpc.cpp:2368`): fail when the currency definition cannot be
retrieved; synthesize a single-record fork index when the local currency is
queried on the Verus chain (or at height 0); otherwise seed from the best
confirmed finalization and, unless a token's legacy notarization output
ended the query early, grow and select among pending notarizations.
Returns `none` exactly where the C++ returns `false`. -/
def GetNotarizationData (env : Env) (withTxOut : Bool) (cid : Nat) :
    Option CChainNotarizationData :=
  match env.getCachedCurrency cid with
  | none => none
  | some chainDef =>
    if (env.isVerusActive || env.height == 0) && cid == env.chainID then
      some (localNotarizationData env cid)
    else
      match seedConfirmed env withTxOut cid chainDef with
      | .fail => none
      | .done c => some c
      | .cont c => some (growAndSelect env cid c)

/-! ## Concrete fixtures used by counterexamples and witnesses -/

/-- A neutral environment: every collaborator fails or is empty. -/
def baseEnv : Env where
  getTransaction := fun _ => none
  blockInActiveChain := fun _ => false
  getCoins := fun _ => none
  getCachedCurrency := fun _ => none
  isVerusActive := false
  height := 0
  chainID := 0
  currencyState := fun _ => 0
  proofRoot := fun _ => ⟨0, 0, 0, 0, 0⟩
  proposer := 0
  transfersIndex := fun _ _ => none
  transfersUnspent := none
  confirmedUnspent := fun _ => none
  pendingUnspent := fun _ => none

/-- A valid seed notarization record for currency 7 with no proof roots. -/
def seedNotaX : CPBaaSNotarization := ⟨true, 7, 0, 10, nullUTXORef, 0, [], 0, 0⟩

/-- A legacy accepted-notarization index script carrying `seedNotaX`. -/
def seedScriptX : Script :=
  some ⟨true, 3, EVAL_ACCEPTEDNOTARIZATION, [{ defaultBlob with nota := seedNotaX }]⟩

/-! ## C5: the local/home-currency branch -/

/-- A PBaaS (non-Verus) chain at height 5 whose own currency id is 77 and
whose confirmed-finalization index is empty. -/
def envLocalSkipped : Env :=
  { baseEnv with
    isVerusActive := false
    height := 5
    chainID := 77
    getCachedCurrency := fun c => if c = 77 then some ⟨false⟩ else none
    confirmedUnspent := fun _ => some [] }

/-- C5 (counterexample): on a non-Verus chain at a nonzero height, querying
the local/home currency does NOT take the synthesize branch (the code
requires `IsVerusActive() || height == 0`, `pbaasrpc.cpp:2383`); here the
query fails outright instead of returning the synthesized single fork. -/
theorem getNotarizationData_local_counterexample :
    envLocalSkipped.chainID = 77 ∧
    (envLocalSkipped.getCachedCurrency 77).isSome = true ∧
    GetNotarizationData envLocalSkipped false 77 = none :=
  ⟨rfl, rfl, rfl⟩

/-- C5 (amended): when the chain is the Verus chain OR the local height is
0, and the queried currency is the local chain's currency (with a valid
cached definition), the seed step synthesizes a fresh record from local
state and returns a single fork of length 1 with best-chain and
last-confirmed both 0, without consulting finalization outputs. -/
theorem getNotarizationData_local (env : Env) (w : Bool) (cid : Nat)
    (hl : env.isVerusActive = true ∨ env.height = 0) (hc : cid = env.chainID)
    (hdef : (env.getCachedCurrency cid).isSome = true) :
    GetNotarizationData env w cid =
      some ⟨[(nullUTXORef, synthesizedNotarization env cid)], [[0]], 0, 0⟩ := by
  cases hget : env.getCachedCurrency cid with
  | none => rw [hget] at hdef; simp at hdef
  | some d =>
    have hcond : ((env.isVerusActive || env.height == 0) && (cid == env.chainID)) = true := by
      rcases hl with h | h <;> simp [h, hc]
    simp [GetNotarizationData, hget, hcond, localNotarizationData]

/-- A Verus chain whose local currency id is 5. -/
def envLocalW : Env :=
  { baseEnv with
    isVerusActive := true
    chainID := 5
    getCachedCurrency := fun _ => some ⟨false⟩ }

/-- C5 (witness): the amended local-branch theorem at a concrete Verus
environment. -/
theorem getNotarizationData_local_witness :
    GetNotarizationData envLocalW true 5 =
      some ⟨[(nullUTXORef, synthesizedNotarization envLocalW 5)], [[0]], 0, 0⟩ :=
  getNotarizationData_local envLocalW true 5 (Or.inl rfl) rfl rfl

/-! ## C10: token with a legacy notarization output -/

/-- C10: when the best confirmed unspent entry for a token currency is
itself a (legacy) notarization output, the query returns right after
seeding — one fork of length 1 — without ever reading the pending
finalization index (no hypothesis on `pendingUnspent` is needed). -/
theorem getNotarizationData_token_legacy (env : Env) (cid : Nat)
    (e0 : AUEntry) (rest : List AUEntry) (p : COptCCParams)
    (hnl : ((env.isVerusActive || env.height == 0) && (cid == env.chainID)) = false)
    (hdef : env.getCachedCurrency cid = some ⟨true⟩)
    (hcf : env.confirmedUnspent cid = some (e0 :: rest))
    (hscript : (bestUnspent e0 rest).script = some p)
    (hp : p.valid = true)
    (hev : p.evalCode = EVAL_EARNEDNOTARIZATION ∨ p.evalCode = EVAL_ACCEPTEDNOTARIZATION)
    (hvd : p.vData ≠ [])
    (hnota : (p.vData.headD defaultBlob).nota.valid = true) :
    GetNotarizationData env false cid =
      some ⟨[(⟨(bestUnspent e0 rest).txhash, (bestUnspent e0 rest).index⟩,
              (p.vData.headD defaultBlob).nota)], [[0]], 0, 0⟩ := by
  have hne : ¬(p.evalCode = EVAL_FINALIZE_NOTARIZATION) := by
    rcases hev with h | h <;>
      simp [h, EVAL_EARNEDNOTARIZATION, EVAL_ACCEPTEDNOTARIZATION, EVAL_FINALIZE_NOTARIZATION]
  have hseed : seedConfirmed env false cid ⟨true⟩ =
      .done ⟨[(⟨(bestUnspent e0 rest).txhash, (bestUnspent e0 rest).index⟩,
               (p.vData.headD defaultBlob).nota)], [[0]], 0, 0⟩ := by
    simp only [seedConfirmed, hcf, hscript]
    rw [if_pos ⟨hp, Or.inr hev, hvd⟩, if_neg hne, if_pos hnota]
    simp [CCurrencyDefinition.isToken]
  simp [GetNotarizationData, hdef, hnl, hseed]

/-- A non-Verus environment where token currency 7 has a legacy confirmed
notarization output and a (nonempty, unread) pending index. -/
def envTokenLegacy : Env :=
  { baseEnv with
    height := 5
    chainID := 1
    getCachedCurrency := fun c => if c = 7 then some ⟨true⟩ else none
    confirmedUnspent := fun c => if c = 7 then some [⟨100, 0, seedScriptX, 10⟩] else none
    pendingUnspent := fun c => if c = 7 then some [⟨200, 0, seedScriptX, 11⟩] else none }

/-- C10 (witness): the token-legacy theorem at a concrete environment whose
pending index is nonempty, showing it is ignored. -/
theorem getNotarizationData_token_legacy_witness :
    GetNotarizationData envTokenLegacy false 7 =
      some ⟨[(⟨100, 0⟩, seedNotaX)], [[0]], 0, 0⟩ :=
  getNotarizationData_token_legacy envTokenLegacy 7 ⟨100, 0, seedScriptX, 10⟩ [] _
    rfl rfl rfl rfl rfl (Or.inr rfl) (by simp [seedScriptX]) rfl

/-! ## C8 and C9: seed shape and failure conditions -/

/-- Every successful seed outcome carries a single fork of length 1 with
best chain and last confirmed both 0. -/
theorem seedConfirmed_shape (env : Env) (w : Bool) (cid : Nat) (d : CCurrencyDefinition)
    (c : CChainNotarizationData)
    (h : seedConfirmed env w cid d = .cont c ∨ seedConfirmed env w cid d = .done c) :
    c.forks = [[0]] ∧ c.vtx.length = 1 ∧ c.lastConfirmed = 0 ∧ c.bestChain = 0 := by
  rcases h with h | h <;>
  · simp only [seedConfirmed] at h
    repeat' split at h
    all_goals first
      | (injection h with h2; subst h2; exact ⟨rfl, rfl, rfl, rfl⟩)
      | (injection h)

/-- C8: for a currency whose confirmed index holds exactly one entry, which
resolves to a valid seed, and whose pending index is empty, the query
succeeds with exactly one fork of length 1 and best-chain = last-confirmed
= 0. -/
theorem getNotarizationData_single_confirmed (env : Env) (w : Bool) (cid : Nat)
    (d : CCurrencyDefinition) (e : AUEntry) (c : CChainNotarizationData)
    (hnl : ((env.isVerusActive || env.height == 0) && (cid == env.chainID)) = false)
    (hdef : env.getCachedCurrency cid = some d)
    (hcf : env.confirmedUnspent cid = some [e])
    (hseed : seedConfirmed env w cid d = .cont c ∨ seedConfirmed env w cid d = .done c)
    (hpend : env.pendingUnspent cid = some []) :
    GetNotarizationData env w cid = some c ∧
      c.forks = [[0]] ∧ c.vtx.length = 1 ∧ c.lastConfirmed = 0 ∧ c.bestChain = 0 := by
  have hshape := seedConfirmed_shape env w cid d c hseed
  rcases hseed with h | h
  · exact ⟨by simp [GetNotarizationData, hdef, hnl, h, growAndSelect, hpend], hshape⟩
  · exact ⟨by simp [GetNotarizationData, hdef, hnl, h], hshape⟩

/-- A non-Verus environment where non-token currency 7 has exactly one
confirmed legacy notarization output and an empty pending index. -/
def envSingleConfirmed : Env :=
  { baseEnv with
    height := 5
    chainID := 1
    getCachedCurrency := fun c => if c = 7 then some ⟨false⟩ else none
    confirmedUnspent := fun c => if c = 7 then some [⟨100, 0, seedScriptX, 10⟩] else none
    pendingUnspent := fun c => if c = 7 then some [] else none }

/-- C8 (witness): the single-confirmed theorem at a concrete environment. -/
theorem getNotarizationData_single_confirmed_witness :
    GetNotarizationData envSingleConfirmed false 7 =
      some ⟨[(⟨100, 0⟩, seedNotaX)], [[0]], 0, 0⟩ ∧
    ([[0]] : List (List Nat)) = [[0]] :=
  ⟨(getNotarizationData_single_confirmed envSingleConfirmed false 7 ⟨false⟩
      ⟨100, 0, seedScriptX, 10⟩ ⟨[(⟨100, 0⟩, seedNotaX)], [[0]], 0, 0⟩
      rfl rfl rfl (Or.inl rfl) rfl).1, rfl⟩

/-- Processing a fork only appends to the notarization list. -/
theorem processFork_vtx (st : ExpState) (k : Nat) :
    ∃ t, (processFork st k).1.vtx = st.vtx ++ t :=
  ⟨_, rfl⟩

/-- A fold of pass steps only appends to the notarization list. -/
theorem foldl_passStep_vtx (L : List Nat) (acc : ExpState × Bool) :
    ∃ t, (L.foldl passStep acc).1.vtx = acc.1.vtx ++ t := by
  induction L generalizing acc with
  | nil => exact ⟨[], by simp⟩
  | cons k l ih =>
    obtain ⟨t1, h1⟩ := processFork_vtx acc.1 k
    obtain ⟨t2, h2⟩ := ih (passStep acc k)
    refine ⟨t1 ++ t2, ?_⟩
    rw [List.foldl_cons, h2, show (passStep acc k).1 = (processFork acc.1 k).1 from rfl, h1,
      List.append_assoc]

/-- A pass only appends to the notarization list. -/
theorem onePass_vtx (st : ExpState) : ∃ t, (onePass st).1.vtx = st.vtx ++ t :=
  foldl_passStep_vtx _ _

/-- The whole expansion only appends to the notarization list. -/
theorem expandLoop_vtx (fuel : Nat) (st : ExpState) :
    ∃ t, (expandLoop fuel st).vtx = st.vtx ++ t := by
  induction fuel generalizing st with
  | zero => exact ⟨[], by simp [expandLoop]⟩
  | succ n ih =>
    by_cases he : st.refs.isEmpty
    · exact ⟨[], by simp [expandLoop, he]⟩
    · obtain ⟨t1, h1⟩ := onePass_vtx st
      by_cases ha : (onePass st).2
      · obtain ⟨t2, h2⟩ := ih (onePass st).1
        exact ⟨t1 ++ t2, by
          simp only [expandLoop, he, if_false, Bool.false_eq_true, ha, if_true]
          rw [h2, h1, List.append_assoc]⟩
      · exact ⟨t1, by
          simp only [expandLoop, he, if_false, Bool.false_eq_true]
          rw [if_neg (by simp [ha]), h1]⟩

/-- The growth-and-selection phase preserves the seed entries as a prefix
of the notarization list. -/
theorem growAndSelect_vtx (env : Env) (cid : Nat) (c : CChainNotarizationData) :
    ∃ t, (growAndSelect env cid c).vtx = c.vtx ++ t := by
  unfold growAndSelect
  cases hp : env.pendingUnspent cid with
  | none => exact ⟨[], by simp⟩
  | some l =>
    cases l with
    | nil => exact ⟨[], by simp⟩
    | cons pf pfs =>
      obtain ⟨t, ht⟩ := expandLoop_vtx
        ((collectPendingRefs env (pf :: pfs)).length + 1)
        ⟨c.vtx, c.forks, collectPendingRefs env (pf :: pfs)⟩
      exact ⟨t, ht⟩

/-- C9: the query fails exactly when the seed phase fails (unknown
currency, or a `.fail` seed outcome outside the local branch); whenever the
seed resolves, the query succeeds and the returned fork index still starts
with the seed entry, no matter how many pending entries were skipped or
consumed. -/
theorem getNotarizationData_fail_only_seed (env : Env) (w : Bool) (cid : Nat) :
    (GetNotarizationData env w cid = none ↔
      env.getCachedCurrency cid = none ∨
        ∃ d, env.getCachedCurrency cid = some d ∧
          ((env.isVerusActive || env.height == 0) && (cid == env.chainID)) = false ∧
          seedConfirmed env w cid d = .fail) ∧
    (∀ d c, env.getCachedCurrency cid = some d →
      ((env.isVerusActive || env.height == 0) && (cid == env.chainID)) = false →
      seedConfirmed env w cid d = .cont c →
      ∃ c', GetNotarizationData env w cid = some c' ∧
        c'.vtx ≠ [] ∧ c'.vtx.head? = c.vtx.head?) ∧
    (∀ d c, env.getCachedCurrency cid = some d →
      ((env.isVerusActive || env.height == 0) && (cid == env.chainID)) = false →
      seedConfirmed env w cid d = .done c →
      GetNotarizationData env w cid = some c) := by
  refine ⟨?_, ?_, ?_⟩
  · cases hg : env.getCachedCurrency cid with
    | none => simp [GetNotarizationData, hg]
    | some d =>
      cases hb : ((env.isVerusActive || env.height == 0) && (cid == env.chainID)) with
      | true => simp [GetNotarizationData, hg, hb]
      | false =>
        cases hs : seedConfirmed env w cid d with
        | fail => simp [GetNotarizationData, hg, hb, hs]
        | done c => simp [GetNotarizationData, hg, hb, hs]
        | cont c => simp [GetNotarizationData, hg, hb, hs]
  · intro d c hg hb hs
    have hshape := seedConfirmed_shape env w cid d c (Or.inl hs)
    obtain ⟨x, hx⟩ := List.length_eq_one.mp hshape.2.1
    obtain ⟨t, ht⟩ := growAndSelect_vtx env cid c
    refine ⟨growAndSelect env cid c, by simp [GetNotarizationData, hg, hb, hs], ?_, ?_⟩
    · rw [ht, hx]; simp
    · rw [ht, hx]; simp
  · intro d c hg hb hs
    simp [GetNotarizationData, hg, hb, hs]

/-- C9 (witness): the seed-success part of the theorem at a concrete
environment. -/
theorem getNotarizationData_fail_only_seed_witness :
    ∃ c', GetNotarizationData envSingleConfirmed false 7 = some c' ∧
      c'.vtx ≠ [] ∧
      c'.vtx.head? =
        (CChainNotarizationData.mk [(⟨100, 0⟩, seedNotaX)] [[0]] 0 0).vtx.head? :=
  (getNotarizationData_fail_only_seed envSingleConfirmed false 7).2.1
    ⟨false⟩ ⟨[(⟨100, 0⟩, seedNotaX)], [[0]], 0, 0⟩ rfl rfl rfl

/-! ## C1 and C7: the selection step -/

/-- Unfolding of the modelled `CChainPower` comparison. -/
theorem chainPowerGT_iff (a b : CChainPower) :
    chainPowerGT a b = true ↔ (b.power < a.power ∨ (a.power = b.power ∧ a.index < b.index)) := by
  simp [chainPowerGT, Bool.or_eq_true, Bool.and_eq_true, decide_eq_true_eq]

/-- Invariant of the selection fold after processing fork indices `0..n-1`:
the accumulator either still holds the default (zero power, index 0, and
every proof root seen so far has zero power), or it holds the first
maximal-positive-power qualifying index seen so far. -/
def SelInv (cid : Nat) (vtx : List (CUTXORef × CPBaaSNotarization))
    (forks : List (List Nat)) (n : Nat) (acc : Nat × CChainPower) : Prop :=
  acc.2.index = acc.1 ∧
  ((acc.1 = 0 ∧ acc.2.power = 0 ∧
      ∀ j, j < n → ∀ pr, tipRoot cid vtx forks j = some pr → pr.compactPower = 0) ∨
   (acc.1 < n ∧ 0 < acc.2.power ∧
      (∃ pr, tipRoot cid vtx forks acc.1 = some pr ∧ pr.compactPower = acc.2.power) ∧
      (∀ j, j < n → ∀ pr, tipRoot cid vtx forks j = some pr →
        pr.compactPower ≤ acc.2.power) ∧
      (∀ j, j < acc.1 → ∀ pr, tipRoot cid vtx forks j = some pr →
        pr.compactPower < acc.2.power)))

/-- The selection invariant is preserved by one loop step. -/
theorem selInv_step (cid : Nat) (vtx : List (CUTXORef × CPBaaSNotarization))
    (forks : List (List Nat)) (n : Nat) (acc : Nat × CChainPower)
    (h : SelInv cid vtx forks n acc) :
    SelInv cid vtx forks (n + 1) (selStep cid vtx forks acc n) := by
  obtain ⟨hidx, hcase⟩ := h
  unfold selStep
  cases hr : tipRoot cid vtx forks n with
  | none =>
    refine ⟨hidx, ?_⟩
    rcases hcase with ⟨h0, hp, hall⟩ | ⟨hlt, hp, hex, hall, hstrict⟩
    · refine Or.inl ⟨h0, hp, fun j hj pr hpr => ?_⟩
      rcases Nat.lt_succ_iff_lt_or_eq.mp hj with hj' | rfl
      · exact hall j hj' pr hpr
      · rw [hr] at hpr; cases hpr
    · refine Or.inr ⟨Nat.lt_succ_of_lt hlt, hp, hex, fun j hj pr hpr => ?_, hstrict⟩
      rcases Nat.lt_succ_iff_lt_or_eq.mp hj with hj' | rfl
      · exact hall j hj' pr hpr
      · rw [hr] at hpr; cases hpr
  | some pr =>
    simp only [ExpandCompactPower]
    by_cases hgt : chainPowerGT ⟨pr.compactPower, n⟩ acc.2 = true
    · rw [if_pos hgt]
      have hgt' : acc.2.power < pr.compactPower ∨
          (pr.compactPower = acc.2.power ∧ n < acc.2.index) := by
        simpa using (chainPowerGT_iff ⟨pr.compactPower, n⟩ acc.2).mp hgt
      rcases hgt' with hlt | ⟨heq, hidx'⟩
      · -- strictly more power than the running best: n becomes the best
        refine ⟨rfl, Or.inr ?_⟩
        dsimp only
        refine ⟨Nat.lt_succ_self n, ?_, ⟨pr, hr, rfl⟩, ?_, ?_⟩
        · rcases hcase with ⟨_, hp, _⟩ | ⟨_, hp, _, _, _⟩ <;> omega
        · intro j hj pr' hpr'
          rcases Nat.lt_succ_iff_lt_or_eq.mp hj with hj' | rfl
          · rcases hcase with ⟨_, hp, hall⟩ | ⟨_, _, _, hall, _⟩
            · have := hall j hj' pr' hpr'; omega
            · have := hall j hj' pr' hpr'; omega
          · rw [hr] at hpr'; cases hpr'; exact le_refl _
        · intro j hj pr' hpr'
          rcases hcase with ⟨_, hp, hall⟩ | ⟨_, _, _, hall, _⟩
          · have := hall j (by omega) pr' hpr'; omega
          · have := hall j (by omega) pr' hpr'; omega
      · -- equal power, lower index: impossible, the running index is below n
        exfalso
        rw [hidx] at hidx'
        rcases hcase with ⟨h0, _, _⟩ | ⟨hlt', _, _, _, _⟩ <;> omega
    · rw [if_neg hgt]
      have hng : ¬(acc.2.power < pr.compactPower ∨
          (pr.compactPower = acc.2.power ∧ n < acc.2.index)) := by
        intro hc
        exact hgt ((chainPowerGT_iff ⟨pr.compactPower, n⟩ acc.2).mpr (by simpa using hc))
      have hle : pr.compactPower ≤ acc.2.power := by omega
      refine ⟨hidx, ?_⟩
      rcases hcase with ⟨h0, hp, hall⟩ | ⟨hlt', hp, hex, hall, hstrict⟩
      · refine Or.inl ⟨h0, hp, fun j hj pr' hpr' => ?_⟩
        rcases Nat.lt_succ_iff_lt_or_eq.mp hj with hj' | rfl
        · exact hall j hj' pr' hpr'
        · rw [hr] at hpr'; cases hpr'; omega
      · refine Or.inr ⟨Nat.lt_succ_of_lt hlt', hp, hex, fun j hj pr' hpr' => ?_, hstrict⟩
        rcases Nat.lt_succ_iff_lt_or_eq.mp hj with hj' | rfl
        · exact hall j hj' pr' hpr'
        · rw [hr] at hpr'; cases hpr'; exact hle

/-- The selection invariant holds of the whole fold. -/
theorem selInv_range (cid : Nat) (vtx : List (CUTXORef × CPBaaSNotarization))
    (forks : List (List Nat)) (n : Nat) :
    SelInv cid vtx forks n
      ((List.range n).foldl (selStep cid vtx forks) (0, ⟨0, 0⟩)) := by
  induction n with
  | zero => exact ⟨rfl, Or.inl ⟨rfl, rfl, fun j hj => absurd hj (Nat.not_lt_zero j)⟩⟩
  | succ m ih =>
    rw [List.range_succ, List.foldl_append, List.foldl_cons, List.foldl_nil]
    exact selInv_step cid vtx forks m _ ih

/-- C1 (amended): among forks whose tips present a proof root for the
currency, if any presents positive expanded power, the best-chain index is
the lowest-index fork of maximal power; when NO fork presents a proof root,
the selection leaves best-chain at 0 and the query still SUCCEEDS (the
missing-root branch only logs, `pbaasrpc.cpp:2637`–`2644`, and the final
return tests only `vtx.size()`), rather than reporting failure. -/
theorem bestChain_selection (cid : Nat) (vtx : List (CUTXORef × CPBaaSNotarization))
    (forks : List (List Nat)) :
    ((∀ i, i < forks.length → tipRoot cid vtx forks i = none) →
      bestChainSelect cid vtx forks = 0) ∧
    ((∃ i, i < forks.length ∧ ∃ pr, tipRoot cid vtx forks i = some pr ∧
        0 < pr.compactPower) →
      bestChainSelect cid vtx forks < forks.length ∧
      ∃ pr, tipRoot cid vtx forks (bestChainSelect cid vtx forks) = some pr ∧
        (∀ j, j < forks.length → ∀ pr', tipRoot cid vtx forks j = some pr' →
          pr'.compactPower ≤ pr.compactPower) ∧
        (∀ j, j < bestChainSelect cid vtx forks → ∀ pr', tipRoot cid vtx forks j = some pr' →
          pr'.compactPower < pr.compactPower)) ∧
    (∀ (env : Env) (w : Bool) (d : CCurrencyDefinition) (c : CChainNotarizationData),
      env.getCachedCurrency cid = some d →
      ((env.isVerusActive || env.height == 0) && (cid == env.chainID)) = false →
      seedConfirmed env w cid d = .cont c →
      (GetNotarizationData env w cid).isSome = true) := by
  have hinv := selInv_range cid vtx forks forks.length
  obtain ⟨hidx, hcase⟩ := hinv
  refine ⟨?_, ?_, ?_⟩
  · intro hnone
    rcases hcase with ⟨h0, _, _⟩ | ⟨hlt, _, ⟨pr, hroot, _⟩, _, _⟩
    · exact h0
    · rw [hnone _ hlt] at hroot; cases hroot
  · intro ⟨i, hi, pr0, hr0, hp0⟩
    rcases hcase with ⟨_, _, hall⟩ | ⟨hlt, hp, ⟨pr, hroot, hpw⟩, hall, hstrict⟩
    · have := hall i hi pr0 hr0; omega
    · refine ⟨hlt, pr, hroot, fun j hj pr' hpr' => ?_, fun j hj pr' hpr' => ?_⟩
      · have := hall j hj pr' hpr'; omega
      · have := hstrict j hj pr' hpr'; omega
  · intro env w d c hg hb hs
    simp [GetNotarizationData, hg, hb, hs]

/-- A valid pending notarization for currency 7 extending the seed at
`(100, 0)`, with no proof roots. -/
def pendNota1 : CPBaaSNotarization := ⟨true, 7, 0, 11, ⟨100, 0⟩, 0, [], 0, 0⟩

/-- A pending finalization script whose output reference is on the same
transaction (null hash). -/
def pendFinScriptX : Script :=
  some ⟨true, 3, EVAL_FINALIZE_NOTARIZATION, [{ defaultBlob with fin := ⟨true, ⟨0, 0⟩⟩ }]⟩

/-- The earned-notarization output script carrying `pendNota1`. -/
def notaScript1 : Script :=
  some ⟨true, 3, EVAL_EARNEDNOTARIZATION, [{ defaultBlob with nota := pendNota1 }]⟩

/-- An environment where currency 7 has a confirmed seed and one valid
pending notarization, and NO notarization presents any proof root. -/
def envNoRoot : Env :=
  { baseEnv with
    height := 5
    chainID := 1
    getCachedCurrency := fun c => if c = 7 then some ⟨false⟩ else none
    confirmedUnspent := fun c => if c = 7 then some [⟨100, 0, seedScriptX, 10⟩] else none
    pendingUnspent := fun c => if c = 7 then some [⟨200, 0, pendFinScriptX, 11⟩] else none
    getTransaction := fun h => if h = 200 then some (⟨[⟨notaScript1, 0⟩]⟩, 500) else none
    blockInActiveChain := fun b => b = 500 }

/-- C1 (counterexample): no fork tip presents a proof root for currency 7
(both records carry empty proof-root maps), yet the query SUCCEEDS and
designates fork 0 as best — the missing-root branch only logs
(`pbaasrpc.cpp:2637`, the `assert(false)` is commented out) and the final
`return notarizationData.vtx.size() != 0` yields true. -/
theorem bestChain_noroot_counterexample :
    GetNotarizationData envNoRoot false 7 =
      some ⟨[(⟨100, 0⟩, seedNotaX), (⟨200, 0⟩, pendNota1)], [[0, 1]], 0, 0⟩ ∧
    proofRootFor seedNotaX 7 = none ∧ proofRootFor pendNota1 7 = none :=
  ⟨rfl, rfl, rfl⟩

/-- Two tip records for currency 7 with the same compact power 5. -/
def rootedNotaA : CPBaaSNotarization :=
  ⟨true, 7, 0, 20, ⟨1, 0⟩, 0, [(7, ⟨7, 0, 0, 0, 5⟩)], 0, 0⟩

/-- A second record, distinct from `rootedNotaA` but with equal power. -/
def rootedNotaB : CPBaaSNotarization :=
  ⟨true, 7, 1, 21, ⟨1, 0⟩, 0, [(7, ⟨7, 0, 0, 0, 5⟩)], 0, 0⟩

/-- Discovery order A then B. -/
def vtxAB : List (CUTXORef × CPBaaSNotarization) :=
  [(⟨10, 0⟩, rootedNotaA), (⟨20, 0⟩, rootedNotaB)]

/-- The same fork set discovered in the other order. -/
def vtxBA : List (CUTXORef × CPBaaSNotarization) :=
  [(⟨20, 0⟩, rootedNotaB), (⟨10, 0⟩, rootedNotaA)]

/-- C1 (witness): the amended selection theorem at a concrete fork set with
a positive-power proof root. -/
theorem bestChain_selection_witness :
    bestChainSelect 7 vtxAB [[0], [1]] < 2 ∧
    ∃ pr, tipRoot 7 vtxAB [[0], [1]] (bestChainSelect 7 vtxAB [[0], [1]]) = some pr ∧
      (∀ j, j < 2 → ∀ pr', tipRoot 7 vtxAB [[0], [1]] j = some pr' →
        pr'.compactPower ≤ pr.compactPower) ∧
      (∀ j, j < bestChainSelect 7 vtxAB [[0], [1]] → ∀ pr',
        tipRoot 7 vtxAB [[0], [1]] j = some pr' →
        pr'.compactPower < pr.compactPower) :=
  (bestChain_selection 7 vtxAB [[0], [1]]).2.1
    ⟨0, by decide, ⟨7, 0, 0, 0, 5⟩, by decide, by decide⟩

/-- C7 (counterexample): two forks with equal-power tips; the two runs over
the permuted fork set each pick index 0, so they pick DIFFERENT tips — the
selected tip is not invariant under permutation of discovery order. -/
theorem bestChain_perm_counterexample :
    vtxAB.Perm vtxBA ∧
    (proofRootFor rootedNotaA 7).map CProofRoot.compactPower = some 5 ∧
    (proofRootFor rootedNotaB 7).map CProofRoot.compactPower = some 5 ∧
    bestChainSelect 7 vtxAB [[0], [1]] = 0 ∧
    bestChainSelect 7 vtxBA [[0], [1]] = 0 ∧
    tipRecord vtxAB [[0], [1]] (bestChainSelect 7 vtxAB [[0], [1]]) ≠
      tipRecord vtxBA [[0], [1]] (bestChainSelect 7 vtxBA [[0], [1]]) := by
  refine ⟨?_, rfl, rfl, rfl, rfl, ?_⟩
  · decide
  · decide

/-- C7 (amended): when every fork tip presents a proof root of one common
power, the selection always picks fork index 0 — the lowest ORIGINAL index
always wins, and the selected index (not the tip it denotes) is what is
invariant under permutation of discovery order. -/
theorem bestChain_equal_power (cid : Nat) (vtx : List (CUTXORef × CPBaaSNotarization))
    (forks : List (List Nat)) (p : Nat)
    (h : ∀ i, i < forks.length →
      ∃ pr, tipRoot cid vtx forks i = some pr ∧ pr.compactPower = p) :
    bestChainSelect cid vtx forks = 0 := by
  obtain ⟨hidx, hcase⟩ := selInv_range cid vtx forks forks.length
  rcases hcase with ⟨h0, _, _⟩ | ⟨hlt, hp, ⟨pr, hroot, hpw⟩, hall, hstrict⟩
  · exact h0
  · by_contra hne
    have hpos : 0 < bestChainSelect cid vtx forks := Nat.pos_of_ne_zero hne
    obtain ⟨pr0, hr0, hpw0⟩ := h 0 (by omega)
    obtain ⟨pr1, hr1, hpw1⟩ := h _ hlt
    rw [hroot] at hr1
    cases hr1
    have hlt0 := hstrict 0 hpos pr0 hr0
    omega

/-- C7 (witness): the equal-power theorem at the concrete two-fork set. -/
theorem bestChain_equal_power_witness :
    bestChainSelect 7 vtxAB [[0], [1]] = 0 :=
  bestChain_equal_power 7 vtxAB [[0], [1]] 5
    (by
      intro i hi
      have hi2 : i < 2 := by simpa using hi
      interval_cases i <;> exact ⟨⟨7, 0, 0, 0, 5⟩, by decide, rfl⟩)

/-! ## C6: the fixed-point expansion on a tree of pending notarizations

A pending-reference entry `(parent, out, record)` hangs the notarization
`record`, sitting at output `out`, below the notarization at output
`parent`.  The entries form a tree rooted at the seed output when outputs
are distinct, no entry claims the root's output, and every entry's parent
chain reaches the root. -/

/-- Bounded reachability of the root through parent references:
`reachesB refs r0 fuel x` holds when `x` reaches `r0` in at most `fuel`
parent steps. -/
def reachesB (refs : List (CUTXORef × CUTXORef × CPBaaSNotarization)) (r0 : CUTXORef) :
    Nat → CUTXORef → Bool
  | 0, x => decide (x = r0)
  | fuel + 1, x =>
    decide (x = r0) ||
      refs.any (fun e => decide (e.2.1 = x) && reachesB refs r0 fuel e.1)

/-- The pending entries form a tree rooted (by parent references) at `r0`:
distinct outputs, no output equal to the root, and every entry's parent
reachable from the root (within `refs.length` steps, which suffices for
any rooted set). -/
def TreeRooted (refs : List (CUTXORef × CUTXORef × CPBaaSNotarization))
    (r0 : CUTXORef) : Prop :=
  (refs.map (fun e => e.2.1)).Nodup ∧
  (∀ e ∈ refs, e.2.1 ≠ r0) ∧
  (∀ e ∈ refs, reachesB refs r0 refs.length e.1 = true)

/-- The number of leaves of the tree: nodes (the root plus every entry's
output) without any child entry. -/
def leafCount (refs : List (CUTXORef × CUTXORef × CPBaaSNotarization))
    (r0 : CUTXORef) : Nat :=
  ((r0 :: refs.map (fun e => e.2.1)).filter
    (fun x => (refs.filter (fun e => decide (e.1 = x))).isEmpty)).length

/-- A node is consumed when it is the root or the output of an original
entry that has left the remaining pending set. -/
def Consumed (refs0 : List (CUTXORef × CUTXORef × CPBaaSNotarization))
    (r0 : CUTXORef) (st : ExpState) (x : CUTXORef) : Prop :=
  x = r0 ∨ ∃ e ∈ refs0, e ∉ st.refs ∧ e.2.1 = x

/-- The matches `processFork` finds at fork `k`'s tip. -/
def msOf (st : ExpState) (k : Nat) : List (CUTXORef × CUTXORef × CPBaaSNotarization) :=
  st.refs.filter (fun r => decide (r.1 = tipRef st k))

/-- `processFork` unfolded: the appended records. -/
theorem processFork_vtx_eq (st : ExpState) (k : Nat) :
    (processFork st k).1.vtx = st.vtx ++ (msOf st k).map (·.2) := rfl

/-- `processFork` unfolded: the erased keys. -/
theorem processFork_refs_eq (st : ExpState) (k : Nat) :
    (processFork st k).1.refs = st.refs.filter (fun r => decide (¬r.1 = tipRef st k)) := rfl

/-- `processFork` unfolded: the `somethingAdded` contribution. -/
theorem processFork_snd_eq (st : ExpState) (k : Nat) :
    (processFork st k).2 = !(msOf st k).isEmpty := rfl

/-- A fork without matches changes nothing and reports no progress. -/
theorem processFork_of_empty (st : ExpState) (k : Nat) (h : msOf st k = []) :
    processFork st k = (st, false) := by
  have hkeep : st.refs.filter (fun r => decide (¬r.1 = tipRef st k)) = st.refs := by
    rw [List.filter_eq_self]
    intro a ha
    have : ¬(a.1 = tipRef st k) := by
      intro heq
      have : a ∈ msOf st k := by
        simp only [msOf, List.mem_filter]
        exact ⟨ha, by simp [heq]⟩
      rw [h] at this
      cases this
    simpa using this
  have hforks : (processFork st k).1.forks = st.forks := by
    simp only [processFork]
    rw [show st.refs.filter (fun r => decide (r.1 = tipRef st k)) = [] from h]
    simp
  have hvtx : (processFork st k).1.vtx = st.vtx := by
    rw [processFork_vtx_eq, h]
    simp
  have hsnd : (processFork st k).2 = false := by
    rw [processFork_snd_eq, h]
    rfl
  have hrefs : (processFork st k).1.refs = st.refs := by
    rw [processFork_refs_eq, hkeep]
  have h1 : (processFork st k).1 = st := by
    cases hst : (processFork st k).1
    cases st
    simp_all
  have h2 : processFork st k = ((processFork st k).1, (processFork st k).2) := rfl
  rw [h2, h1, hsnd]

/-- `processFork` unfolded for a fork with matches: the matched fork is
extended in place with the first new index; every further match clones the
original fork path with its own new index appended at the end. -/
theorem processFork_forks_eq (st : ExpState) (k : Nat) (hm : msOf st k ≠ []) :
    (processFork st k).1.forks =
      (st.forks.set k ((st.forks.getD k []) ++ [st.vtx.length])) ++
        ((List.range (msOf st k).length).drop 1).map
          (fun j => (st.forks.getD k []) ++ [st.vtx.length + j]) := by
  have hie : (st.refs.filter (fun r => decide (r.1 = tipRef st k))).isEmpty = false :=
    List.isEmpty_eq_false.mpr hm
  simp only [processFork, hie]
  rfl

/-- The fork count grows by the number of extra (cloned) matches. -/
theorem processFork_forks_len (st : ExpState) (k : Nat) (hm : msOf st k ≠ []) :
    (processFork st k).1.forks.length = st.forks.length + ((msOf st k).length - 1) := by
  rw [processFork_forks_eq st k hm]
  simp [List.length_set, List.length_drop]

/-- The fork count never shrinks. -/
theorem processFork_forks_len_le (st : ExpState) (k : Nat) :
    st.forks.length ≤ (processFork st k).1.forks.length := by
  by_cases hm : msOf st k = []
  · rw [processFork_of_empty st k hm]
  · rw [processFork_forks_len st k hm]; omega

/-- Tips of unprocessed forks are unchanged. -/
theorem tipRef_processFork_other (st : ExpState) (k i : Nat) (hm : msOf st k ≠ [])
    (hi : i < st.forks.length) (hne : i ≠ k)
    (hwf : (st.forks.getD i []).getLastD 0 < st.vtx.length) :
    tipRef (processFork st k).1 i = tipRef st i := by
  unfold tipRef
  rw [processFork_forks_eq st k hm, processFork_vtx_eq]
  have h1 : ((st.forks.set k (st.forks.getD k [] ++ [st.vtx.length])) ++
      ((List.range (msOf st k).length).drop 1).map
        (fun j => (st.forks.getD k []) ++ [st.vtx.length + j])).getD i [] =
      st.forks.getD i [] := by
    rw [List.getD_append _ _ _ _ (by rw [List.length_set]; exact hi),
      List.getD_eq_getElem?_getD, List.getElem?_set_ne (Ne.symm hne),
      ← List.getD_eq_getElem?_getD]
  rw [h1, List.getD_append _ _ _ _ hwf]

/-- The processed fork's tip becomes the first match's output. -/
theorem tipRef_processFork_self (st : ExpState) (k : Nat) (hm : msOf st k ≠ [])
    (hk : k < st.forks.length) :
    tipRef (processFork st k).1 k =
      ((msOf st k).map (fun e => e.2.1)).getD 0 nullUTXORef := by
  unfold tipRef
  rw [processFork_forks_eq st k hm, processFork_vtx_eq]
  have h1 : ((st.forks.set k (st.forks.getD k [] ++ [st.vtx.length])) ++
      ((List.range (msOf st k).length).drop 1).map
        (fun j => (st.forks.getD k []) ++ [st.vtx.length + j])).getD k [] =
      st.forks.getD k [] ++ [st.vtx.length] := by
    rw [List.getD_append _ _ _ _ (by rw [List.length_set]; exact hk),
      List.getD_eq_getElem?_getD, List.getElem?_set_self hk]
    rfl
  rw [h1, List.getLastD_concat]
  obtain ⟨e, tl, htl⟩ := List.exists_cons_of_ne_nil hm
  rw [htl]
  rw [List.getD_append_right _ _ _ _ (le_refl _)]
  simp

/-- Each cloned fork's tip is the corresponding further match's output. -/
theorem tipRef_processFork_clone (st : ExpState) (k j : Nat) (hm : msOf st k ≠ [])
    (hj : j < (msOf st k).length - 1) :
    tipRef (processFork st k).1 (st.forks.length + j) =
      ((msOf st k).map (fun e => e.2.1)).getD (j + 1) nullUTXORef := by
  unfold tipRef
  rw [processFork_forks_eq st k hm, processFork_vtx_eq]
  have h1 : ((st.forks.set k (st.forks.getD k [] ++ [st.vtx.length])) ++
      ((List.range (msOf st k).length).drop 1).map
        (fun j => (st.forks.getD k []) ++ [st.vtx.length + j])).getD
        (st.forks.length + j) [] =
      st.forks.getD k [] ++ [st.vtx.length + (j + 1)] := by
    rw [List.getD_eq_getElem?_getD,
      List.getElem?_append_right (by rw [List.length_set]; omega)]
    rw [List.length_set, Nat.add_sub_cancel_left, List.getElem?_map,
      List.getElem?_drop, List.getElem?_range (by omega)]
    simp [Nat.add_comm 1 j]
  rw [h1, List.getLastD_concat]
  rw [List.getD_eq_getElem?_getD,
    List.getElem?_append_right (by omega), Nat.add_sub_cancel_left,
    List.getElem?_map, List.getD_eq_getElem?_getD, List.getElem?_map]
  cases hq : (msOf st k)[j + 1]? with
  | none =>
    exfalso
    rw [List.getElem?_eq_getElem (by omega)] at hq
    cases hq
  | some e => simp

/-- The invariant maintained by the expansion loop over a tree of pending
references, relative to the original pending set `refs0` and root `r0`:
forks are nonempty with in-bound tips, the remaining set is a sub-list of
the original, fork tips are distinct consumed nodes, an entry is gone from
the remaining set exactly when its parent is consumed and no longer a tip,
children of tips are still pending, consumed childless nodes stay tips, and
the record list holds each consumed node exactly once. -/
structure ExpInv (refs0 : List (CUTXORef × CUTXORef × CPBaaSNotarization))
    (r0 : CUTXORef) (st : ExpState) : Prop where
  wf_ne : ∀ i, i < st.forks.length → st.forks.getD i [] ≠ []
  wf_lt : ∀ i, i < st.forks.length → (st.forks.getD i []).getLastD 0 < st.vtx.length
  sub : st.refs.Sublist refs0
  tips_inj : ∀ i j, i < st.forks.length → j < st.forks.length → i ≠ j →
    tipRef st i ≠ tipRef st j
  tips_consumed : ∀ i, i < st.forks.length → Consumed refs0 r0 st (tipRef st i)
  consumed_removed : ∀ e ∈ refs0, Consumed refs0 r0 st e.1 →
    (∀ i, i < st.forks.length → tipRef st i ≠ e.1) → e ∉ st.refs
  unconsumed_kept : ∀ e ∈ refs0, ¬Consumed refs0 r0 st e.1 → e ∈ st.refs
  tip_children_kept : ∀ i, i < st.forks.length → ∀ e ∈ refs0, e.1 = tipRef st i →
    e ∈ st.refs
  childless_tip : ∀ x, Consumed refs0 r0 st x → (∀ e ∈ refs0, e.1 ≠ x) →
    ∃ i, i < st.forks.length ∧ tipRef st i = x
  vtx_inj : (st.vtx.map Prod.fst).Nodup
  vtx_consumed : ∀ v ∈ st.vtx.map Prod.fst, Consumed refs0 r0 st v
  vtx_len : st.vtx.length + st.refs.length = refs0.length + 1

/-- Consumption is monotone under shrinking of the remaining pending set. -/
theorem Consumed.mono {refs0 : List (CUTXORef × CUTXORef × CPBaaSNotarization)}
    {r0 : CUTXORef} {st st' : ExpState}
    (h : ∀ e, e ∈ st'.refs → e ∈ st.refs) {x : CUTXORef}
    (hc : Consumed refs0 r0 st x) : Consumed refs0 r0 st' x := by
  rcases hc with h0 | ⟨e, he, hne, heq⟩
  · exact Or.inl h0
  · exact Or.inr ⟨e, he, fun hmem => hne (h e hmem), heq⟩

/-- In a tree, entries are determined by their outputs. -/
theorem TreeRooted.out_inj {refs0 : List (CUTXORef × CUTXORef × CPBaaSNotarization)}
    {r0 : CUTXORef} (hT : TreeRooted refs0 r0)
    {e1 e2 : CUTXORef × CUTXORef × CPBaaSNotarization}
    (h1 : e1 ∈ refs0) (h2 : e2 ∈ refs0) (h : e1.2.1 = e2.2.1) : e1 = e2 :=
  List.inj_on_of_nodup_map hT.1 h1 h2 h

/-- The output of a still-pending entry is not consumed. -/
theorem not_consumed_of_mem_refs {refs0 : List (CUTXORef × CUTXORef × CPBaaSNotarization)}
    {r0 : CUTXORef} {st : ExpState} (hT : TreeRooted refs0 r0)
    (hsub : st.refs.Sublist refs0)
    {e : CUTXORef × CUTXORef × CPBaaSNotarization} (he : e ∈ st.refs) :
    ¬Consumed refs0 r0 st e.2.1 := by
  intro hc
  rcases hc with h0 | ⟨e', he', hne', heq⟩
  · exact hT.2.1 e (hsub.subset he) h0
  · have : e' = e := hT.out_inj he' (hsub.subset he) heq
    subst this
    exact hne' he

/-- Membership in the remaining set after a fork is processed. -/
theorem mem_refs_processFork (st : ExpState) (k : Nat)
    (e : CUTXORef × CUTXORef × CPBaaSNotarization) :
    e ∈ (processFork st k).1.refs ↔ e ∈ st.refs ∧ ¬e.1 = tipRef st k := by
  rw [processFork_refs_eq]
  simp [List.mem_filter]

/-- Membership in the match list. -/
theorem mem_msOf (st : ExpState) (k : Nat)
    (e : CUTXORef × CUTXORef × CPBaaSNotarization) :
    e ∈ msOf st k ↔ e ∈ st.refs ∧ e.1 = tipRef st k := by
  simp [msOf, List.mem_filter]

/-- After processing fork `k`, a node is consumed exactly when it was
already consumed or is the output of one of the matches. -/
theorem consumed_processFork_iff {refs0 : List (CUTXORef × CUTXORef × CPBaaSNotarization)}
    {r0 : CUTXORef} (st : ExpState) (k : Nat) (hsub : st.refs.Sublist refs0)
    (x : CUTXORef) :
    Consumed refs0 r0 (processFork st k).1 x ↔
      Consumed refs0 r0 st x ∨ x ∈ (msOf st k).map (fun e => e.2.1) := by
  constructor
  · rintro (h0 | ⟨e, he, hne, heq⟩)
    · exact Or.inl (Or.inl h0)
    · by_cases hmem : e ∈ st.refs
      · have hkey : e.1 = tipRef st k := by
          by_contra hk'
          exact hne ((mem_refs_processFork st k e).mpr ⟨hmem, hk'⟩)
        exact Or.inr (List.mem_map.mpr ⟨e, (mem_msOf st k e).mpr ⟨hmem, hkey⟩, heq⟩)
      · exact Or.inl (Or.inr ⟨e, he, hmem, heq⟩)
  · rintro (hc | hx)
    · exact hc.mono (fun e he => ((mem_refs_processFork st k e).mp he).1)
    · obtain ⟨e, hems, heq⟩ := List.mem_map.mp hx
      obtain ⟨hemem, hekey⟩ := (mem_msOf st k e).mp hems
      refine Or.inr ⟨e, hsub.subset hemem, ?_, heq⟩
      intro habs
      exact ((mem_refs_processFork st k e).mp habs).2 hekey

/-- Unprocessed fork paths are unchanged. -/
theorem forks_getD_processFork_other (st : ExpState) (k i : Nat) (hm : msOf st k ≠ [])
    (hi : i < st.forks.length) (hne : i ≠ k) :
    (processFork st k).1.forks.getD i [] = st.forks.getD i [] := by
  rw [processFork_forks_eq st k hm,
    List.getD_append _ _ _ _ (by rw [List.length_set]; exact hi),
    List.getD_eq_getElem?_getD, List.getElem?_set_ne (Ne.symm hne),
    ← List.getD_eq_getElem?_getD]

/-- The processed fork path gains the first new index in place. -/
theorem forks_getD_processFork_self (st : ExpState) (k : Nat) (hm : msOf st k ≠ [])
    (hk : k < st.forks.length) :
    (processFork st k).1.forks.getD k [] = st.forks.getD k [] ++ [st.vtx.length] := by
  rw [processFork_forks_eq st k hm,
    List.getD_append _ _ _ _ (by rw [List.length_set]; exact hk),
    List.getD_eq_getElem?_getD, List.getElem?_set_self hk]
  rfl

/-- Each cloned fork is the original path with its own new index at the
end. -/
theorem forks_getD_processFork_clone (st : ExpState) (k j : Nat) (hm : msOf st k ≠ [])
    (hj : j < (msOf st k).length - 1) :
    (processFork st k).1.forks.getD (st.forks.length + j) [] =
      st.forks.getD k [] ++ [st.vtx.length + (j + 1)] := by
  rw [processFork_forks_eq st k hm, List.getD_eq_getElem?_getD,
    List.getElem?_append_right (by rw [List.length_set]; omega),
    List.length_set, Nat.add_sub_cancel_left, List.getElem?_map,
    List.getElem?_drop, List.getElem?_range (by omega)]
  simp [Nat.add_comm 1 j]

/-- A filter and its complement split a list's length. -/
theorem length_filter_add_length_filter_not {α : Type} (l : List α) (p : α → Bool) :
    (l.filter p).length + (l.filter (fun a => !(p a))).length = l.length := by
  induction l with
  | nil => simp
  | cons a t ih =>
    cases h : p a <;> simp [List.filter_cons, h] <;> omega

/-- One `processFork` step preserves the expansion invariant. -/
theorem expInv_processFork {refs0 : List (CUTXORef × CUTXORef × CPBaaSNotarization)}
    {r0 : CUTXORef} (hT : TreeRooted refs0 r0) (st : ExpState) (k : Nat)
    (hk : k < st.forks.length) (hInv : ExpInv refs0 r0 st) :
    ExpInv refs0 r0 (processFork st k).1 := by
  by_cases hm : msOf st k = []
  · rw [processFork_of_empty st k hm]; exact hInv
  · have hm1 : 0 < (msOf st k).length := List.length_pos.mpr hm
    have hlen' : (processFork st k).1.forks.length =
        st.forks.length + ((msOf st k).length - 1) := processFork_forks_len st k hm
    have hms_sub : (msOf st k).Sublist st.refs := List.filter_sublist _
    have hsub' : (processFork st k).1.refs.Sublist st.refs := by
      rw [processFork_refs_eq]; exact List.filter_sublist _
    have hmono : ∀ e, e ∈ (processFork st k).1.refs → e ∈ st.refs :=
      fun e he => hsub'.subset he
    have houts_nodup : ((msOf st k).map (fun e => e.2.1)).Nodup :=
      List.Nodup.sublist (List.Sublist.map _ (hms_sub.trans hInv.sub)) hT.1
    have houts_len : ((msOf st k).map (fun e => e.2.1)).length = (msOf st k).length :=
      List.length_map _ _
    have houts_not_consumed :
        ∀ x ∈ (msOf st k).map (fun e => e.2.1), ¬Consumed refs0 r0 st x := by
      intro x hx
      obtain ⟨e, hems, heq⟩ := List.mem_map.mp hx
      rw [← heq]
      exact not_consumed_of_mem_refs hT hInv.sub (hms_sub.subset hems)
    have htip_other : ∀ i, i < st.forks.length → i ≠ k →
        tipRef (processFork st k).1 i = tipRef st i :=
      fun i hi hne => tipRef_processFork_other st k i hm hi hne (hInv.wf_lt i hi)
    have htip_self : tipRef (processFork st k).1 k =
        ((msOf st k).map (fun e => e.2.1)).getD 0 nullUTXORef :=
      tipRef_processFork_self st k hm hk
    have htip_clone : ∀ j, j < (msOf st k).length - 1 →
        tipRef (processFork st k).1 (st.forks.length + j) =
          ((msOf st k).map (fun e => e.2.1)).getD (j + 1) nullUTXORef :=
      fun j hj => tipRef_processFork_clone st k j hm hj
    have houts_getD_mem : ∀ j, j < (msOf st k).length →
        ((msOf st k).map (fun e => e.2.1)).getD j nullUTXORef ∈
          (msOf st k).map (fun e => e.2.1) := by
      intro j hj
      rw [List.getD_eq_getElem _ _ (by rw [houts_len]; exact hj)]
      exact List.getElem_mem _
    have houts_getD_inj : ∀ j1 j2, j1 < (msOf st k).length → j2 < (msOf st k).length →
        ((msOf st k).map (fun e => e.2.1)).getD j1 nullUTXORef =
          ((msOf st k).map (fun e => e.2.1)).getD j2 nullUTXORef → j1 = j2 := by
      intro j1 j2 h1 h2 heq
      rw [List.getD_eq_getElem _ _ (by rw [houts_len]; exact h1),
        List.getD_eq_getElem _ _ (by rw [houts_len]; exact h2)] at heq
      exact houts_nodup.getElem_inj_iff.mp heq
    have hconsumed_iff := @consumed_processFork_iff refs0 r0 st k hInv.sub
    have houts_tip : ∀ x, x ∈ (msOf st k).map (fun e => e.2.1) →
        ∃ i, i < (processFork st k).1.forks.length ∧ tipRef (processFork st k).1 i = x := by
      intro x hx
      obtain ⟨jx, hjx, hgx⟩ := List.getElem_of_mem hx
      rw [houts_len] at hjx
      have hgd : ((msOf st k).map (fun e => e.2.1)).getD jx nullUTXORef = x := by
        rw [List.getD_eq_getElem _ _ (by rw [houts_len]; exact hjx)]; exact hgx
      cases jx with
      | zero => exact ⟨k, by omega, by rw [htip_self, hgd]⟩
      | succ j =>
        exact ⟨st.forks.length + j, by omega, by rw [htip_clone j (by omega), hgd]⟩
    have htips_class : ∀ i, i < (processFork st k).1.forks.length →
        (i < st.forks.length ∧ i ≠ k ∧
          tipRef (processFork st k).1 i = tipRef st i) ∨
        (∃ j, j < (msOf st k).length ∧
          tipRef (processFork st k).1 i =
            ((msOf st k).map (fun e => e.2.1)).getD j nullUTXORef ∧
          ((i = k ∧ j = 0) ∨
            (st.forks.length ≤ i ∧ j = i - st.forks.length + 1))) := by
      intro i hi
      rw [hlen'] at hi
      rcases Nat.lt_or_ge i st.forks.length with hilt | hige
      · by_cases hik : i = k
        · subst hik
          exact Or.inr ⟨0, by omega, htip_self, Or.inl ⟨rfl, rfl⟩⟩
        · exact Or.inl ⟨hilt, hik, htip_other i hilt hik⟩
      · refine Or.inr ⟨i - st.forks.length + 1, by omega, ?_, Or.inr ⟨hige, rfl⟩⟩
        have h := htip_clone (i - st.forks.length) (by omega)
        rwa [Nat.add_sub_cancel' hige] at h
    have htk_consumed : Consumed refs0 r0 st (tipRef st k) := hInv.tips_consumed k hk
    refine
      { wf_ne := ?_, wf_lt := ?_, sub := hsub'.trans hInv.sub, tips_inj := ?_,
        tips_consumed := ?_, consumed_removed := ?_, unconsumed_kept := ?_,
        tip_children_kept := ?_, childless_tip := ?_, vtx_inj := ?_,
        vtx_consumed := ?_, vtx_len := ?_ }
    · -- wf_ne
      intro i hi
      rw [hlen'] at hi
      rcases Nat.lt_or_ge i st.forks.length with hilt | hige
      · by_cases hik : i = k
        · rw [hik, forks_getD_processFork_self st k hm hk]
          simp
        · rw [forks_getD_processFork_other st k i hm hilt hik]
          exact hInv.wf_ne i hilt
      · have h := forks_getD_processFork_clone st k (i - st.forks.length) hm (by omega)
        rw [Nat.add_sub_cancel' hige] at h
        rw [h]
        simp
    · -- wf_lt
      intro i hi
      have hvlen : (processFork st k).1.vtx.length =
          st.vtx.length + (msOf st k).length := by
        rw [processFork_vtx_eq, List.length_append, List.length_map]
      rw [hlen'] at hi
      rw [hvlen]
      rcases Nat.lt_or_ge i st.forks.length with hilt | hige
      · by_cases hik : i = k
        · rw [hik, forks_getD_processFork_self st k hm hk, List.getLastD_concat]
          omega
        · rw [forks_getD_processFork_other st k i hm hilt hik]
          have := hInv.wf_lt i hilt
          omega
      · have h := forks_getD_processFork_clone st k (i - st.forks.length) hm (by omega)
        rw [Nat.add_sub_cancel' hige] at h
        rw [h, List.getLastD_concat]
        omega
    · -- tips_inj
      intro i j hi hj hne
      rcases htips_class i hi with ⟨hi1, hik, hieq⟩ | ⟨ji, hji, hieq, hitag⟩ <;>
        rcases htips_class j hj with ⟨hj1, hjk, hjeq⟩ | ⟨jj, hjj, hjeq, hjtag⟩
      · rw [hieq, hjeq]
        exact hInv.tips_inj i j hi1 hj1 hne
      · rw [hieq, hjeq]
        intro heq
        exact houts_not_consumed _ (heq ▸ houts_getD_mem jj hjj)
          (hInv.tips_consumed i hi1)
      · rw [hieq, hjeq]
        intro heq
        exact houts_not_consumed _ (heq ▸ houts_getD_mem ji hji)
          (hInv.tips_consumed j hj1)
      · rw [hieq, hjeq]
        intro heq
        have hjeq' := houts_getD_inj ji jj hji hjj heq
        rcases hitag with ⟨hik, hj0⟩ | ⟨hin, hjv⟩ <;>
          rcases hjtag with ⟨hjk, hj0'⟩ | ⟨hjn, hjv'⟩ <;> omega
    · -- tips_consumed
      intro i hi
      rcases htips_class i hi with ⟨hi1, _, hieq⟩ | ⟨ji, hji, hieq, _⟩
      · rw [hieq]
        exact (hconsumed_iff _).mpr (Or.inl (hInv.tips_consumed i hi1))
      · rw [hieq]
        exact (hconsumed_iff _).mpr (Or.inr (houts_getD_mem ji hji))
    · -- consumed_removed
      intro e he hce hnt
      rcases (hconsumed_iff e.1).mp hce with hold | houts
      · by_cases hex : ∃ i, i < st.forks.length ∧ tipRef st i = e.1
        · obtain ⟨i, hi, htipi⟩ := hex
          by_cases hik : i = k
          · intro habs
            have h1 := (mem_refs_processFork st k e).mp habs
            rw [← hik] at h1
            exact h1.2 (htipi ▸ rfl)
          · exfalso
            refine hnt i (by omega) ?_
            rw [htip_other i hi hik, htipi]
        · push_neg at hex
          have : e ∉ st.refs := hInv.consumed_removed e he hold
            (fun i hi => hex i hi)
          intro habs
          exact this (hmono e habs)
      · exfalso
        obtain ⟨i, hi, htipi⟩ := houts_tip e.1 houts
        exact hnt i hi htipi
    · -- unconsumed_kept
      intro e he hnc
      have hnold : ¬Consumed refs0 r0 st e.1 := fun h =>
        hnc ((hconsumed_iff e.1).mpr (Or.inl h))
      have hmem : e ∈ st.refs := hInv.unconsumed_kept e he hnold
      refine (mem_refs_processFork st k e).mpr ⟨hmem, ?_⟩
      intro heq
      exact hnold (heq ▸ htk_consumed)
    · -- tip_children_kept
      intro i hi e he hkey
      rcases htips_class i hi with ⟨hi1, hik, hieq⟩ | ⟨ji, hji, hieq, _⟩
      · rw [hieq] at hkey
        have hmem : e ∈ st.refs := hInv.tip_children_kept i hi1 e he hkey
        refine (mem_refs_processFork st k e).mpr ⟨hmem, ?_⟩
        rw [hkey]
        exact hInv.tips_inj i k hi1 hk hik
      · rw [hieq] at hkey
        have hxout : e.1 ∈ (msOf st k).map (fun e => e.2.1) :=
          hkey ▸ houts_getD_mem ji hji
        have hnold : ¬Consumed refs0 r0 st e.1 := houts_not_consumed _ hxout
        have hmem : e ∈ st.refs := hInv.unconsumed_kept e he hnold
        refine (mem_refs_processFork st k e).mpr ⟨hmem, ?_⟩
        intro heq
        exact hnold (heq ▸ htk_consumed)
    · -- childless_tip
      intro x hcx hchild
      rcases (hconsumed_iff x).mp hcx with hold | houts
      · obtain ⟨i, hi, htipi⟩ := hInv.childless_tip x hold hchild
        by_cases hik : i = k
        · exfalso
          subst hik
          obtain ⟨e, te, hte⟩ := List.exists_cons_of_ne_nil hm
          have hems : e ∈ msOf st i := by rw [hte]; exact List.mem_cons_self e te
          have := (mem_msOf st i e).mp hems
          exact hchild e (hInv.sub.subset this.1) (htipi ▸ this.2)
        · refine ⟨i, by omega, ?_⟩
          rw [htip_other i hi hik, htipi]
      · exact houts_tip x houts
    · -- vtx_inj
      have hmap : (processFork st k).1.vtx.map Prod.fst =
          st.vtx.map Prod.fst ++ (msOf st k).map (fun e => e.2.1) := by
        rw [processFork_vtx_eq, List.map_append, List.map_map]
        rfl
      rw [hmap]
      refine List.Nodup.append hInv.vtx_inj houts_nodup ?_
      intro x hx1 hx2
      exact houts_not_consumed x hx2 (hInv.vtx_consumed x hx1)
    · -- vtx_consumed
      intro v hv
      have hmap : (processFork st k).1.vtx.map Prod.fst =
          st.vtx.map Prod.fst ++ (msOf st k).map (fun e => e.2.1) := by
        rw [processFork_vtx_eq, List.map_append, List.map_map]
        rfl
      rw [hmap] at hv
      rcases List.mem_append.mp hv with h1 | h2
      · exact (hconsumed_iff v).mpr (Or.inl (hInv.vtx_consumed v h1))
      · exact (hconsumed_iff v).mpr (Or.inr h2)
    · -- vtx_len
      have hvlen : (processFork st k).1.vtx.length =
          st.vtx.length + (msOf st k).length := by
        rw [processFork_vtx_eq, List.length_append, List.length_map]
      have hsplit : (msOf st k).length + (processFork st k).1.refs.length =
          st.refs.length := by
        have h := length_filter_add_length_filter_not st.refs
          (fun r => decide (r.1 = tipRef st k))
        have hconv : st.refs.filter
            (fun r => !(decide (r.1 = tipRef st k))) =
            st.refs.filter (fun r => decide (¬r.1 = tipRef st k)) := by
          apply List.filter_congr
          intro a _
          simp
        rw [hconv] at h
        rw [processFork_refs_eq]
        exact h
      have := hInv.vtx_len
      omega

/-- The invariant passes through a fold of pass steps whose fork indices
are in range, and the fork count never shrinks. -/
theorem expInv_foldl {refs0 : List (CUTXORef × CUTXORef × CPBaaSNotarization)}
    {r0 : CUTXORef} (hT : TreeRooted refs0 r0) (L : List Nat) :
    ∀ (st : ExpState) (b : Bool), (∀ x ∈ L, x < st.forks.length) →
      ExpInv refs0 r0 st →
      ExpInv refs0 r0 (L.foldl passStep (st, b)).1 ∧
      st.forks.length ≤ (L.foldl passStep (st, b)).1.forks.length := by
  induction L with
  | nil => intro st b _ hInv; exact ⟨hInv, le_refl _⟩
  | cons k l ih =>
    intro st b hbound hInv
    have hk : k < st.forks.length := hbound k (List.mem_cons_self k l)
    have hInv' := expInv_processFork hT st k hk hInv
    have hle := processFork_forks_len_le st k
    have hrec := ih (processFork st k).1 (b || (processFork st k).2)
      (fun x hx => lt_of_lt_of_le (hbound x (List.mem_cons_of_mem k hx)) hle) hInv'
    exact ⟨hrec.1, le_trans hle hrec.2⟩

/-- The invariant passes through one pass. -/
theorem expInv_onePass {refs0 : List (CUTXORef × CUTXORef × CPBaaSNotarization)}
    {r0 : CUTXORef} (hT : TreeRooted refs0 r0) (st : ExpState)
    (hInv : ExpInv refs0 r0 st) : ExpInv refs0 r0 (onePass st).1 :=
  (expInv_foldl hT (List.range st.forks.length) st false
    (fun x hx => List.mem_range.mp hx) hInv).1

/-- The `somethingAdded` flag is monotone through a pass. -/
theorem foldl_passStep_true (L : List Nat) :
    ∀ (acc : ExpState × Bool), acc.2 = true → (L.foldl passStep acc).2 = true := by
  induction L with
  | nil => intro acc h; exact h
  | cons k l ih =>
    intro acc h
    exact ih (passStep acc k) (by simp [passStep, h])

/-- A pass that reports no progress left the state untouched and found no
matches at any fork it visited. -/
theorem foldl_passStep_false (L : List Nat) (st : ExpState)
    (h : (L.foldl passStep (st, false)).2 = false) :
    (L.foldl passStep (st, false)).1 = st ∧ ∀ k ∈ L, msOf st k = [] := by
  induction L with
  | nil => exact ⟨rfl, fun k hk => absurd hk (List.not_mem_nil k)⟩
  | cons k l ih =>
    rw [List.foldl_cons] at h ⊢
    by_cases hpk : (processFork st k).2 = true
    · exfalso
      have h2 : (passStep (st, false) k).2 = true := by
        simp [passStep, hpk]
      have := foldl_passStep_true l (passStep (st, false) k) h2
      rw [this] at h
      cases h
    · have hms : msOf st k = [] := by
        have hfalse : (processFork st k).2 = false := by
          cases hb : (processFork st k).2
          · rfl
          · exact absurd hb hpk
        have hie : (msOf st k).isEmpty = true := by
          simpa [processFork_snd_eq] using hfalse
        exact List.isEmpty_iff.mp hie
      have hstep : passStep (st, false) k = (st, false) := by
        simp [passStep, processFork_of_empty st k hms]
      rw [hstep] at h ⊢
      obtain ⟨h1, h2⟩ := ih h
      refine ⟨h1, fun x hx => ?_⟩
      rcases List.mem_cons.mp hx with rfl | hx'
      · exact hms
      · exact h2 x hx'

/-- The remaining pending set only shrinks through a fold of pass steps. -/
theorem foldl_passStep_refs_sublist (L : List Nat) :
    ∀ (acc : ExpState × Bool), (L.foldl passStep acc).1.refs.Sublist acc.1.refs := by
  induction L with
  | nil => intro acc; exact List.Sublist.refl _
  | cons k l ih =>
    intro acc
    refine (ih (passStep acc k)).trans ?_
    show (processFork acc.1 k).1.refs.Sublist acc.1.refs
    rw [processFork_refs_eq]
    exact List.filter_sublist _

/-- Consuming a nonempty match set strictly shrinks the pending set. -/
theorem processFork_refs_lt (st : ExpState) (k : Nat) (hm : msOf st k ≠ []) :
    (processFork st k).1.refs.length < st.refs.length := by
  have h := length_filter_add_length_filter_not st.refs
    (fun r => decide (r.1 = tipRef st k))
  have hconv : st.refs.filter (fun r => !(decide (r.1 = tipRef st k))) =
      st.refs.filter (fun r => decide (¬r.1 = tipRef st k)) := by
    apply List.filter_congr
    intro a _
    simp
  rw [hconv] at h
  have hpos : 0 < (msOf st k).length := List.length_pos.mpr hm
  rw [processFork_refs_eq]
  have : (msOf st k).length = (st.refs.filter (fun r => decide (r.1 = tipRef st k))).length :=
    rfl
  omega

/-- A pass that made progress strictly shrinks the pending set. -/
theorem foldl_passStep_lt (L : List Nat) :
    ∀ (st : ExpState), (L.foldl passStep (st, false)).2 = true →
      (L.foldl passStep (st, false)).1.refs.length < st.refs.length := by
  induction L with
  | nil => intro st h; cases h
  | cons k l ih =>
    intro st h
    rw [List.foldl_cons] at h ⊢
    by_cases hpk : msOf st k = []
    · have hstep : passStep (st, false) k = (st, false) := by
        simp [passStep, processFork_of_empty st k hpk]
      rw [hstep] at h ⊢
      exact ih st h
    · have hlt := processFork_refs_lt st k hpk
      have hsub := foldl_passStep_refs_sublist l (passStep (st, false) k)
      have hle := hsub.length_le
      have hps : (passStep (st, false) k).1 = (processFork st k).1 := rfl
      rw [hps] at hle
      omega

/-- A pass reporting no progress left everything unchanged. -/
theorem onePass_false (st : ExpState) (h : (onePass st).2 = false) :
    (onePass st).1 = st ∧ ∀ k, k < st.forks.length → msOf st k = [] := by
  obtain ⟨h1, h2⟩ := foldl_passStep_false (List.range st.forks.length) st h
  exact ⟨h1, fun k hk => h2 k (List.mem_range.mpr hk)⟩

/-- A pass reporting progress consumed at least one pending entry. -/
theorem onePass_true_lt (st : ExpState) (h : (onePass st).2 = true) :
    (onePass st).1.refs.length < st.refs.length :=
  foldl_passStep_lt (List.range st.forks.length) st h

/-- With the tree hypothesis, a state in which no visited fork has matches
has consumed the whole pending set: every node's parent chain reaches the
root, so an unconsumed entry would sit below some tip and be a match. -/
theorem stuck_refs_nil {refs0 : List (CUTXORef × CUTXORef × CPBaaSNotarization)}
    {r0 : CUTXORef} (hT : TreeRooted refs0 r0) {st : ExpState}
    (hInv : ExpInv refs0 r0 st)
    (hstuck : ∀ k, k < st.forks.length → msOf st k = []) : st.refs = [] := by
  have hreach : ∀ fuel x, reachesB refs0 r0 fuel x = true → Consumed refs0 r0 st x := by
    intro fuel
    induction fuel with
    | zero =>
      intro x hx
      exact Or.inl (by simpa [reachesB] using hx)
    | succ f ih =>
      intro x hx
      rw [reachesB, Bool.or_eq_true] at hx
      rcases hx with hx0 | hxa
      · exact Or.inl (by simpa using hx0)
      · rw [List.any_eq_true] at hxa
        obtain ⟨e, he, hee⟩ := hxa
        rw [Bool.and_eq_true] at hee
        obtain ⟨heq, hrf⟩ := hee
        have heq' : e.2.1 = x := by simpa using heq
        have hpar : Consumed refs0 r0 st e.1 := ih e.1 hrf
        by_cases hmem : e ∈ st.refs
        · by_cases hex : ∃ i, i < st.forks.length ∧ tipRef st i = e.1
          · obtain ⟨i, hi, hti⟩ := hex
            have hm : e ∈ msOf st i := (mem_msOf st i e).mpr ⟨hmem, hti.symm⟩
            rw [hstuck i hi] at hm
            cases hm
          · push_neg at hex
            exact absurd hmem (hInv.consumed_removed e he hpar hex)
        · exact Or.inr ⟨e, he, hmem, heq'⟩
  by_contra hne
  obtain ⟨e, he⟩ := List.exists_mem_of_ne_nil st.refs hne
  have he0 : e ∈ refs0 := hInv.sub.subset he
  have hpar : Consumed refs0 r0 st e.1 := hreach refs0.length e.1 (hT.2.2 e he0)
  by_cases hex : ∃ i, i < st.forks.length ∧ tipRef st i = e.1
  · obtain ⟨i, hi, hti⟩ := hex
    have hm : e ∈ msOf st i := (mem_msOf st i e).mpr ⟨he, hti.symm⟩
    rw [hstuck i hi] at hm
    cases hm
  · push_neg at hex
    exact (hInv.consumed_removed e he0 hpar hex) he

/-- The invariant passes through the whole expansion loop. -/
theorem expInv_expandLoop {refs0 : List (CUTXORef × CUTXORef × CPBaaSNotarization)}
    {r0 : CUTXORef} (hT : TreeRooted refs0 r0) :
    ∀ (fuel : Nat) (st : ExpState), ExpInv refs0 r0 st →
      ExpInv refs0 r0 (expandLoop fuel st) := by
  intro fuel
  induction fuel with
  | zero => intro st h; exact h
  | succ f ih =>
    intro st h
    by_cases he : st.refs.isEmpty = true
    · simp only [expandLoop, he, if_true]
      exact h
    · simp only [expandLoop, he, Bool.false_eq_true, if_false]
      by_cases ha : (onePass st).2 = true
      · simp only [ha, if_true]
        exact ih (onePass st).1 (expInv_onePass hT st h)
      · simp only [ha, if_false]
        rw [(onePass_false st (Bool.not_eq_true _ ▸ ha : (onePass st).2 = false)).1]
        exact h

/-- With sufficient fuel (the C++ loop needs none), the expansion loop
fully consumes a rooted pending set. -/
theorem expandLoop_refs_nil {refs0 : List (CUTXORef × CUTXORef × CPBaaSNotarization)}
    {r0 : CUTXORef} (hT : TreeRooted refs0 r0) :
    ∀ (fuel : Nat) (st : ExpState), ExpInv refs0 r0 st →
      st.refs.length < fuel → (expandLoop fuel st).refs = [] := by
  intro fuel
  induction fuel with
  | zero => intro st _ h; omega
  | succ f ih =>
    intro st hInv hfe
    by_cases he : st.refs.isEmpty = true
    · simp only [expandLoop, he, if_true]
      exact List.isEmpty_iff.mp he
    · simp only [expandLoop, he, Bool.false_eq_true, if_false]
      by_cases ha : (onePass st).2 = true
      · simp only [ha, if_true]
        have hlt := onePass_true_lt st ha
        exact ih (onePass st).1 (expInv_onePass hT st hInv) (by omega)
      · exfalso
        have h1 := onePass_false st (Bool.not_eq_true _ ▸ ha : (onePass st).2 = false)
        have : st.refs = [] := stuck_refs_nil hT hInv h1.2
        rw [this] at he
        simp at he

/-- The invariant holds of the initial state: the seed entry as the single
record, one fork `[0]`, and the full pending set. -/
theorem expInv_init {refs0 : List (CUTXORef × CUTXORef × CPBaaSNotarization)}
    (seed : CUTXORef × CPBaaSNotarization) :
    ExpInv refs0 seed.1 ⟨[seed], [[0]], refs0⟩ := by
  have htip : tipRef ⟨[seed], [[0]], refs0⟩ 0 = seed.1 := rfl
  refine
    { wf_ne := ?_, wf_lt := ?_, sub := List.Sublist.refl _, tips_inj := ?_,
      tips_consumed := ?_, consumed_removed := ?_, unconsumed_kept := ?_,
      tip_children_kept := ?_, childless_tip := ?_, vtx_inj := ?_,
      vtx_consumed := ?_, vtx_len := ?_ }
  · intro i hi
    have : i = 0 := by simpa using hi
    subst this
    simp
  · intro i hi
    have : i = 0 := by simpa using hi
    subst this
    simp
  · intro i j hi hj hne
    have : i = 0 := by simpa using hi
    have : j = 0 := by simpa using hj
    omega
  · intro i hi
    have : i = 0 := by simpa using hi
    subst this
    rw [htip]
    exact Or.inl rfl
  · intro e he hce hnt
    rcases hce with h0 | ⟨e', _, hne', _⟩
    · exact absurd (htip.trans h0.symm) (hnt 0 (by simp))
    · exact absurd ‹e' ∈ refs0› hne'
  · intro e he _
    exact he
  · intro i _ e he _
    exact he
  · intro x hcx _
    rcases hcx with h0 | ⟨e', _, hne', _⟩
    · exact ⟨0, by simp, htip.trans h0.symm⟩
    · exact absurd ‹e' ∈ refs0› hne'
  · simp
  · intro v hv
    have : v = seed.1 := by simpa using hv
    exact Or.inl this
  · show ([seed] : List (CUTXORef × CPBaaSNotarization)).length + refs0.length = refs0.length + 1
    simp [Nat.add_comm]

/-- At a fully consumed final state, the forks are in bijection with the
leaves of the tree, and the record list holds the seed plus each pending
record exactly once. -/
theorem final_state_count {refs0 : List (CUTXORef × CUTXORef × CPBaaSNotarization)}
    {r0 : CUTXORef} (hT : TreeRooted refs0 r0) {st : ExpState}
    (hInv : ExpInv refs0 r0 st) (hnil : st.refs = []) :
    st.forks.length = leafCount refs0 r0 ∧
    (st.vtx.map Prod.fst).Nodup ∧ st.vtx.length = refs0.length + 1 := by
  have htips_nodup : ((List.range st.forks.length).map (tipRef st)).Nodup := by
    refine (List.nodup_map_iff_inj_on (List.nodup_range _)).mpr ?_
    intro x hx y hy hxy
    by_contra hne
    exact hInv.tips_inj x y (List.mem_range.mp hx) (List.mem_range.mp hy) hne hxy
  have hnodes_nodup : (r0 :: refs0.map (fun e => e.2.1)).Nodup := by
    refine List.nodup_cons.mpr ⟨?_, hT.1⟩
    intro hr
    obtain ⟨e, he, heq⟩ := List.mem_map.mp hr
    exact hT.2.1 e he heq
  have hchildless : ∀ x, (∀ e ∈ refs0, e.1 ≠ x) ↔
      ((refs0.filter (fun e => decide (e.1 = x))).isEmpty = true) := by
    intro x
    rw [List.isEmpty_iff, List.filter_eq_nil_iff]
    constructor
    · intro h e he
      simp [h e he]
    · intro h e he heq
      have := h e he
      simp [heq] at this
  have hmem_iff : ∀ x, x ∈ (List.range st.forks.length).map (tipRef st) ↔
      x ∈ (r0 :: refs0.map (fun e => e.2.1)).filter
        (fun y => (refs0.filter (fun e => decide (e.1 = y))).isEmpty) := by
    intro x
    rw [List.mem_filter]
    constructor
    · intro hx
      obtain ⟨i, hi, heq⟩ := List.mem_map.mp hx
      have hi' := List.mem_range.mp hi
      have hchild : ∀ e ∈ refs0, e.1 ≠ x := by
        intro e he heq'
        have := hInv.tip_children_kept i hi' e he (heq ▸ heq')
        rw [hnil] at this
        cases this
      refine ⟨?_, (hchildless x).mp hchild⟩
      rcases hInv.tips_consumed i hi' with h0 | ⟨e, he, _, hout⟩
      · exact List.mem_cons.mpr (Or.inl (heq.symm.trans h0))
      · exact List.mem_cons.mpr (Or.inr (List.mem_map.mpr ⟨e, he, heq ▸ hout⟩))
    · intro ⟨hmem, hpred⟩
      have hchild : ∀ e ∈ refs0, e.1 ≠ x := (hchildless x).mpr hpred
      have hcx : Consumed refs0 r0 st x := by
        rcases List.mem_cons.mp hmem with h0 | hout
        · exact Or.inl h0
        · obtain ⟨e, he, heq⟩ := List.mem_map.mp hout
          exact Or.inr ⟨e, he, by rw [hnil]; exact List.not_mem_nil e, heq⟩
      obtain ⟨i, hi, heq⟩ := hInv.childless_tip x hcx hchild
      exact List.mem_map.mpr ⟨i, List.mem_range.mpr hi, heq⟩
  have hfilter_nodup :
      ((r0 :: refs0.map (fun e => e.2.1)).filter
        (fun y => (refs0.filter (fun e => decide (e.1 = y))).isEmpty)).Nodup :=
    List.Nodup.filter _ hnodes_nodup
  have hlen : st.forks.length = ((List.range st.forks.length).map (tipRef st)).length := by
    simp
  have hcount :
      ((List.range st.forks.length).map (tipRef st)).length =
      ((r0 :: refs0.map (fun e => e.2.1)).filter
        (fun y => (refs0.filter (fun e => decide (e.1 = y))).isEmpty)).length := by
    rw [← List.toFinset_card_of_nodup htips_nodup,
      ← List.toFinset_card_of_nodup hfilter_nodup]
    congr 1
    ext x
    simp only [List.mem_toFinset]
    exact hmem_iff x
  refine ⟨?_, hInv.vtx_inj, ?_⟩
  · rw [hlen, hcount]
    rfl
  · have := hInv.vtx_len
    rw [hnil] at this
    simpa using this

/-- C6: when the valid pending records form a tree rooted at the seed,
the fixed-point expansion (started, as in `GetNotarizationData`, from the
single seed fork and run to completion) produces exactly one fork per leaf
of the tree; each record's output appears at most once in the result (no
record is consumed twice), and in fact every pending record is consumed
exactly once; and at each processed fork the first match extends the fork
in place while each further match clones the fork's prefix with its own
new tip. -/
theorem expansion_tree_leaves (seed : CUTXORef × CPBaaSNotarization)
    (refs : List (CUTXORef × CUTXORef × CPBaaSNotarization))
    (htree : TreeRooted refs seed.1) :
    (expandLoop (refs.length + 1) ⟨[seed], [[0]], refs⟩).forks.length =
      leafCount refs seed.1 ∧
    ((expandLoop (refs.length + 1) ⟨[seed], [[0]], refs⟩).vtx.map Prod.fst).Nodup ∧
    (expandLoop (refs.length + 1) ⟨[seed], [[0]], refs⟩).vtx.length =
      refs.length + 1 ∧
    (∀ (st : ExpState) (k : Nat), msOf st k ≠ [] →
      (processFork st k).1.forks =
        (st.forks.set k ((st.forks.getD k []) ++ [st.vtx.length])) ++
          ((List.range (msOf st k).length).drop 1).map
            (fun j => (st.forks.getD k []) ++ [st.vtx.length + j])) := by
  have h0 : ExpInv refs seed.1 ⟨[seed], [[0]], refs⟩ := expInv_init seed
  have hInvF := expInv_expandLoop htree (refs.length + 1) ⟨[seed], [[0]], refs⟩ h0
  have hnil := expandLoop_refs_nil htree (refs.length + 1) ⟨[seed], [[0]], refs⟩ h0
    (by simp)
  obtain ⟨h1, h2, h3⟩ := final_state_count htree hInvF hnil
  exact ⟨h1, h2, h3, fun st k hm => processFork_forks_eq st k hm⟩

/-- The seed of the spec's §8 scenario. -/
def seedW : CUTXORef × CPBaaSNotarization := (⟨1, 0⟩, seedNotaX)

/-- The spec's §8 scenario tree: P1 and P2 hang below the root, P3 below
P1 — two leaves. -/
def refsW : List (CUTXORef × CUTXORef × CPBaaSNotarization) :=
  [(⟨1, 0⟩, ⟨10, 0⟩, pendNota1), (⟨1, 0⟩, ⟨20, 0⟩, rootedNotaA),
   (⟨10, 0⟩, ⟨30, 0⟩, rootedNotaB)]

/-- C6 (witness): the tree theorem at the spec's concrete scenario
(`P1→R, P2→R, P3→P1`), whose expansion yields exactly two forks. -/
theorem expansion_tree_leaves_witness :
    (expandLoop (refsW.length + 1) ⟨[seedW], [[0]], refsW⟩).forks.length =
      leafCount refsW seedW.1 ∧
    ((expandLoop (refsW.length + 1) ⟨[seedW], [[0]], refsW⟩).vtx.map Prod.fst).Nodup ∧
    (expandLoop (refsW.length + 1) ⟨[seedW], [[0]], refsW⟩).vtx.length =
      refsW.length + 1 ∧
    (∀ (st : ExpState) (k : Nat), msOf st k ≠ [] →
      (processFork st k).1.forks =
        (st.forks.set k ((st.forks.getD k []) ++ [st.vtx.length])) ++
          ((List.range (msOf st k).length).drop 1).map
            (fun j => (st.forks.getD k []) ++ [st.vtx.length + j])) :=
  expansion_tree_leaves seedW refsW ⟨by decide, by decide, by decide⟩

end Verus
